import Mathlib

/-!
Signature attacks on ECDSA and SM2: a shallow embedding of `attack.go`.

Conventions of the embedding.

* A `*big.Int` that is known to be non-nil is an `Int`; a `*big.Int` that may be nil
  is an `Option Int`.
* A Go function that may stop with a run-time panic (nil dereference, division by
  zero, slice bounds) returns in `Option`: `none` is the panic.  A Go function whose
  result may be `nil` then returns `Option (Option _)`: `some none` is the nil result.
* The curve arithmetic of `crypto/elliptic` and the curve of `crypto/sm/sm2` are
  external; a `Curve` value carries them as functions.
-/

namespace SigAttack

/-! ## Bytes and `math/big` -/

/-- One byte. -/
abbrev Byte := Fin 256

/-- Go byte slice: `data` holds the `len` visible bytes, `spare` the bytes of the backing
array between `len` and `cap`, which a reslice `h[0:k]` with `len < k ≤ cap` exposes. -/
structure ByteSlice where
  data : List Byte
  spare : List Byte
deriving DecidableEq, Repr

/-- The reslice `h[0:k]`: a run-time panic when `k` exceeds the capacity. -/
def ByteSlice.upTo (h : ByteSlice) (k : Nat) : Option (List Byte) :=
  if k ≤ h.data.length + h.spare.length then some ((h.data ++ h.spare).take k) else none

/-- Value of a big-endian byte string (`big.Int.SetBytes`). -/
def SetBytes (bs : List Byte) : Int :=
  ((bs.foldl (fun acc b => acc * 256 + b.val) 0 : Nat) : Int)

/-- Big-endian digits of `n` in base 256 pushed in front of `acc`, at most `fuel` of them. -/
def natBytesAux : Nat → Nat → List Byte → List Byte
  | 0, _, acc => acc
  | fuel + 1, n, acc =>
    if n = 0 then acc else natBytesAux fuel (n / 256) (Fin.ofNat (n % 256) :: acc)

/-- Minimal big-endian encoding of the absolute value (`big.Int.Bytes`). -/
def Bytes (x : Int) : List Byte :=
  natBytesAux x.natAbs x.natAbs []

/-- Number of binary digits of `n`, counted with at most `fuel` halvings. -/
def bitLenAux : Nat → Nat → Nat
  | 0, _ => 0
  | fuel + 1, n => if n = 0 then 0 else bitLenAux fuel (n / 2) + 1

/-- Length of the absolute value in bits (`big.Int.BitLen`); `0` for `0`. -/
def BitLen (x : Int) : Nat :=
  bitLenAux x.natAbs x.natAbs

/-- Euclidean modulus (`big.Int.Mod`): a division-by-zero panic for modulus `0`,
otherwise the representative in `[0, |m|)`. -/
def Mod (x m : Int) : Option Int :=
  if m = 0 then none else some (x % m)

/-- Extended Euclid on the remainders `r0, r1` with Bezout coefficients `s0, s1`:
the coefficient of the last nonzero remainder when that remainder is `1`. -/
def invAux : Nat → Nat → Nat → Int → Int → Option Int
  | 0, _, _, _, _ => none
  | fuel + 1, r0, r1, s0, s1 =>
    if r1 = 0 then (if r0 = 1 then some s0 else none)
    else invAux fuel r1 (r0 % r1) s1 (s0 - ((r0 / r1 : Nat) : Int) * s1)

/-- Modular inverse (`big.Int.ModInverse`): the inverse of `g` in `[0, |n|)` when `g`
and `n` are relatively prime, and nil (`none`) when they are not. -/
def ModInverse (g n : Int) : Option Int :=
  (invAux (n.natAbs + 2) n.natAbs (g % (n.natAbs : Int)).toNat 0 1).map
    (fun x => x % (n.natAbs : Int))

/-! ## Curves, keys, signatures -/

/-- Parameters of a curve (`elliptic.CurveParams`). -/
structure CurveParams where
  P : Int
  N : Int
  B : Int
  Gx : Int
  Gy : Int

/-- The `elliptic.Curve` interface: the parameters and the group operations on affine
coordinates; scalars are big-endian byte strings. -/
structure Curve where
  Params : CurveParams
  Add : Int → Int → Int → Int → Int × Int
  ScalarMult : Int → Int → List Byte → Int × Int
  ScalarBaseMult : List Byte → Int × Int

/-- The concrete curve type `sm2.Sm2P256Curve`: an `elliptic.Curve` with the extra
method `Inverse`, inversion modulo the group order. -/
structure Sm2P256Curve where
  curve : Curve
  Inverse : Int → Int

/-- Public key (`ecdsa.PublicKey`, `sm2.PublicKey`): a curve and a point. -/
structure PublicKey where
  Curve : Curve
  X : Int
  Y : Int

/-- Private key (`ecdsa.PrivateKey`, `sm2.PrivateKey`). -/
structure PrivateKey where
  PublicKey : PublicKey
  D : Int

/-- Signature pair `(R, S)`. -/
structure ecSignature where
  R : Int
  S : Int
deriving DecidableEq, Repr

/-! ## The functions of `attack.go` -/

/-- Digest to scalar: the leftmost `BitLen N` bits of the digest. -/
def hashToInt (hash : ByteSlice) (c : Curve) : Int :=
  let orderBits := BitLen c.Params.N
  let orderBytes := (orderBits + 7) / 8
  let hash := if hash.data.length > orderBytes then hash.data.take orderBytes else hash.data
  let ret := SetBytes hash
  let excess : Int := (hash.length : Int) * 8 - (orderBits : Int)
  if excess > 0 then ret / 2 ^ excess.toNat else ret

/-- ECDSA signing with a caller-supplied nonce. -/
def WeakECDSASign (rand : Int) (priv : PrivateKey) (hash : ByteSlice) :
    Option (Option (Int × Int)) := do
  let c := priv.PublicKey.Curve
  let N := c.Params.N
  if N = 0 then return none
  let kInv := ModInverse rand N
  let r := (c.ScalarBaseMult (Bytes rand)).1
  let r := r % N
  if r = 0 then return none
  let e := hashToInt hash c
  let s := priv.D * r
  let s := s + e
  -- `s.Mul(s, kInv)` dereferences `kInv`
  let kInv ← kInv
  let s := s * kInv
  let s := s % N
  if s = 0 then return none
  return some (r, s)

/-- Private key from two ECDSA signatures whose nonces satisfy `k2 = a * k1 + b`. -/
def RecoverECDSAPrivKeyFromLinearRelationship (pub : PublicKey) (digest : ByteSlice)
    (sig1 sig2 : ecSignature) (a b : Int) : Option (Option PrivateKey) := do
  let c := pub.Curve
  let N := c.Params.N
  let e := hashToInt digest c
  let w1 := ModInverse sig1.S N
  let w2 := ModInverse sig2.S N
  -- `w1.Mul(a, w1)` dereferences `w1`, `Sub(w2, w1)` dereferences `w2`
  let w1 ← w1
  let w1 := a * w1
  let w2 ← w2
  let e := e * (w2 - w1)
  let d1 ← Mod (b - e) N
  let d2 := sig2.R * w2 - sig1.R * w1
  if d2 = 0 then return none
  -- `d2.ModInverse(d2, N)`: `d2` keeps its value when there is no inverse
  let d2 := (ModInverse d2 N).getD d2
  let D ← Mod (d1 * d2) N
  return some { PublicKey := pub, D := D }

/-- SM2 signing with a caller-supplied nonce; `sm2P256` is the package's curve value. -/
def WeakSM2Sign (sm2P256 : Sm2P256Curve) (rand : Int) (priv : PrivateKey) (hash : ByteSlice) :
    Option (Option (Int × Int)) := do
  let e := SetBytes (← hash.upTo 32)
  let n := priv.PublicKey.Curve.Params.N
  let x1 := (sm2P256.curve.ScalarBaseMult (Bytes rand)).1
  let r := e + x1
  let r ← Mod r n
  if r = 0 then return none
  if r + rand = n then return none
  let s1 := r * priv.D
  let s1 ← Mod s1 n
  let s1 := rand - s1
  let s1 ← Mod s1 n
  let s2 := 1 + priv.D
  let s2 ← Mod s2 n
  let s2 := sm2P256.Inverse s2
  let s := s1 * s2
  let s ← Mod s n
  if s = 0 then return none
  return some (r, s)

/-- Private key from two SM2 signatures whose nonces satisfy `k2 = a * k1 + b`. -/
def RecoverSM2PrivKeyFromLinearRelationship (pub : PublicKey) (sig1 sig2 : ecSignature)
    (a b : Int) : Option (Option PrivateKey) := do
  let c := pub.Curve
  let N := c.Params.N
  let t1 := sig1.S + sig1.R
  let t2 := sig2.S + sig2.R
  let dt := t2 - a * t1
  let dt ← Mod dt N
  if dt = 0 then return none
  let ds := sig2.S - a * sig1.S
  let ds ← Mod ds N
  -- `dt.ModInverse(dt, N)`: `dt` keeps its value when there is no inverse
  let dt := (ModInverse dt N).getD dt
  let D := (b - ds) * dt
  let D ← Mod D N
  return some { PublicKey := pub, D := D }

/-- Coefficients `(a, b)` of a nonce relation from two SM2 signatures. -/
def RecoverSM2RandomRelationship (sig1 sig2 : ecSignature) (N : Int) :
    Option (Option (Int × Int)) := do
  let t1 := sig1.S + sig1.R
  let t2 := sig2.S + sig2.R
  match ModInverse t1 N with
  | none => return none
  | some t1Inv =>
    let a := t1Inv * t2
    let a ← Mod a N
    let b := sig2.S - a * sig1.S
    let b ← Mod b N
    return some (a, b)

/-- Nonce of an SM2 signature from the private key. -/
def RecoverSM2RandomFromPrivateKey (priv : PrivateKey) (sig : ecSignature) : Option Int := do
  let s := sig.S * (1 + priv.D)
  let k := s + sig.R * priv.D
  Mod k priv.PublicKey.Curve.Params.N

/-- Forged SM2 signature and digest for a public key, from two scalars. -/
def SM2GenerateSignatureAttack (pub : PublicKey) (a b : Int) :
    Option (Int × Int × ByteSlice) := do
  let c := pub.Curve
  let N := pub.Curve.Params.N
  let aG := c.ScalarBaseMult (Bytes a)
  let bP := c.ScalarMult pub.X pub.Y (Bytes b)
  let x := (c.Add aG.1 aG.2 bP.1 bP.2).1
  let x ← Mod x N
  let r := b - a
  let r ← Mod r N
  let s := a
  let s ← Mod s N
  let tmp := b - x - a
  let tmp ← Mod tmp N
  return (r, s, { data := Bytes tmp, spare := [] })

/-- Forged ECDSA signature and digest for a public key, from two scalars. -/
def ECDSAGenerateSignatureAttack (pub : PublicKey) (a b : Int) :
    Option (Option (Int × Int × ByteSlice)) := do
  if b = 0 then return none
  let c := pub.Curve
  let N := pub.Curve.Params.N
  let aG := c.ScalarBaseMult (Bytes a)
  let bP := c.ScalarMult pub.X pub.Y (Bytes b)
  let r := (c.Add aG.1 aG.2 bP.1 bP.2).1
  let r ← Mod r N
  let bInv := ModInverse b N
  -- `Mul(r, bInv)` dereferences `bInv`
  let bInv ← bInv
  let s := r * bInv
  let s ← Mod s N
  let tmp := a * s
  let tmp ← Mod tmp N
  return some (r, s, { data := Bytes tmp, spare := [] })

/-- Second signature for digest `0` from a first one; `ModSqrt` is `big.Int.ModSqrt`,
which returns a square root modulo the prime, or nil when there is none. -/
def ECDSAZeroHashAttack (ModSqrt : Int → Int → Option Int) (sig : ecSignature) (a : Int)
    (c : Curve) : Option ecSignature := do
  let x3 := sig.R * sig.R
  let x3 := x3 * sig.R
  let threeX := sig.R * 2
  let threeX := threeX + sig.R
  let x3 := x3 - threeX
  let x3 := x3 + c.Params.B
  let x3 ← Mod x3 c.Params.P
  let y := ModSqrt x3 c.Params.P
  -- `ScalarMult` dereferences `y`
  let y ← y
  let r1 := (c.ScalarMult sig.R y (Bytes a)).1
  let r1 ← Mod r1 c.Params.N
  let sinv := a * sig.R
  -- `sinv.ModInverse(sinv, N)`: `sinv` keeps its value when there is no inverse
  let sinv := (ModInverse sinv c.Params.N).getD sinv
  let s1 := r1 * sig.S * sinv
  let s1 ← Mod s1 c.Params.N
  return { R := r1, S := s1 }

/-- Second signature `(R, N - S)` from a signature `(R, S)`. -/
def GenerateECDSASig (sig : ecSignature) (n : Int) : ecSignature :=
  { R := sig.R, S := n - sig.S }

/-! ## Properties the statements are about -/

/-- `Inverse` of the SM2 curve type inverts modulo `N`: for every `k` in `[1, N)`,
`k * Inverse k ≡ 1 (mod N)`. -/
def InvertsModulo (sm2P256 : Sm2P256Curve) (N : Int) : Prop :=
  ∀ k : Int, 1 ≤ k → k < N → k * sm2P256.Inverse k ≡ 1 [ZMOD N]

/-- Standard ECDSA verification of `(r, s)` for the digest scalar `e` under `pub`, the
check of the external `ecdsa.Verify` as the specification states it:
`1 ≤ r, s ≤ N - 1` and `x(u1·G + u2·K) mod N = r` with `u1 = e·s⁻¹ mod N`,
`u2 = r·s⁻¹ mod N`, computed with the operations of the key's curve. -/
def ecdsaVerify (pub : PublicKey) (e r s : Int) : Bool :=
  let c := pub.Curve
  let N := c.Params.N
  if r < 1 ∨ N - 1 < r ∨ s < 1 ∨ N - 1 < s then false
  else
    match ModInverse s N with
    | none => false
    | some w =>
      let u1 := e * w % N
      let u2 := r * w % N
      let p1 := c.ScalarBaseMult (Bytes u1)
      let p2 := c.ScalarMult pub.X pub.Y (Bytes u2)
      decide ((c.Add p1.1 p1.2 p2.1 p2.2).1 % N = r)

/-- Standard SM2 verification of `(r, s)` for the digest scalar `e` under `pub`, the check
of the external `sm2.Verify` as the specification states it (the steps of the reference
verifier `WeakSM2Verify` left as a comment in `attack.go`, and the test `t ≠ 0`):
`1 ≤ r, s ≤ N - 1`, `t = (r + s) mod N ≠ 0` and `(e + x(s·G + t·K)) mod N = r`. -/
def sm2Verify (pub : PublicKey) (e r s : Int) : Bool :=
  let c := pub.Curve
  let N := c.Params.N
  if r < 1 ∨ N - 1 < r ∨ s < 1 ∨ N - 1 < s then false
  else
    let t := (r + s) % N
    if t = 0 then false
    else
      let p1 := c.ScalarBaseMult (Bytes s)
      let p2 := c.ScalarMult pub.X pub.Y (Bytes t)
      decide ((e + (c.Add p1.1 p1.2 p2.1 p2.2).1) % N = r)

/-! ## Concrete curves

An affine implementation of the `elliptic.Curve` interface for `y² = x³ - 3x + B`
over `F_P`, with `(0, 0)` standing for the point at infinity as in `crypto/elliptic`.
It gives concrete inputs on which the functions above are evaluated. -/

/-- Affine point addition on `y² = x³ - 3x + B` over `F_P`. -/
def affineAdd (P x1 y1 x2 y2 : Int) : Int × Int :=
  if x1 = 0 ∧ y1 = 0 then (x2, y2)
  else if x2 = 0 ∧ y2 = 0 then (x1, y1)
  else if x1 = x2 then
    if (y1 + y2) % P = 0 then (0, 0)
    else
      let l := (3 * x1 * x1 - 3) * (ModInverse (2 * y1) P).getD 0 % P
      let x3 := (l * l - x1 - x2) % P
      (x3, (l * (x1 - x3) - y1) % P)
  else
    let l := (y2 - y1) * (ModInverse (x2 - x1) P).getD 0 % P
    let x3 := (l * l - x1 - x2) % P
    (x3, (l * (x1 - x3) - y1) % P)

/-- The eight bits of a byte, most significant first. -/
def byteBits (b : Byte) : List Bool :=
  [7, 6, 5, 4, 3, 2, 1, 0].map (fun i => b.val / 2 ^ i % 2 = 1)

/-- Double-and-add over the bits of the scalar, most significant first. -/
def affineScalarMult (P x y : Int) (k : List Byte) : Int × Int :=
  (k.flatMap byteBits).foldl
    (fun acc bit =>
      let d := affineAdd P acc.1 acc.2 acc.1 acc.2
      if bit then affineAdd P d.1 d.2 x y else d)
    (0, 0)

/-- The curve `y² = x³ - 3x + B` over `F_P` with base point `(Gx, Gy)` of order `N`. -/
def weierstrass (P N B Gx Gy : Int) : Curve where
  Params := { P := P, N := N, B := B, Gx := Gx, Gy := Gy }
  Add := affineAdd P
  ScalarMult := affineScalarMult P
  ScalarBaseMult := affineScalarMult P Gx Gy

/-- The curve `y² = x³ - 3x + 10` over `F_11`: 7 points, generated by `(2, 1)`. -/
def tiny : Curve := weierstrass 11 7 10 2 1

/-- The curve `tiny` with inversion modulo its order: a small stand-in for the SM2 curve. -/
def tinySm2 : Sm2P256Curve where
  curve := tiny
  Inverse := fun k => (ModInverse k 7).getD 0

/-- The curve `y² = x³ - 3x + 7` over `F_137`: 131 points, generated by `(2, 3)`;
the order has exactly 8 bits. -/
def small : Curve := weierstrass 137 131 7 2 3

/-- NIST P-256. -/
def p256 : Curve :=
  weierstrass
    115792089210356248762697446949407573530086143415290314195533631308867097853951
    115792089210356248762697446949407573529996955224135760342422259061068512044369
    41058363725152142129326129780047268409114441015993725554835256314039467401291
    48439561293906451759052585252797914202762949526041747995844080717082404635286
    36134250956749795798585127919587881956611106672985015071877198253568414405109

/-- The public key `3·G = (10, 1)` on `tiny`. -/
def tinyPub : PublicKey := { Curve := tiny, X := 10, Y := 1 }

/-- The private key `3` on `tiny`. -/
def tinyPriv : PrivateKey := { PublicKey := tinyPub, D := 3 }

/-- The public key `3·G = (71, 86)` on `small`. -/
def smallPub : PublicKey := { Curve := small, X := 71, Y := 86 }

/-- The digest of the tests, the eight bytes of "12345678", in a backing array of
capacity 32 whose other bytes are zero. -/
def digest12345678 : ByteSlice :=
  { data := [49, 50, 51, 52, 53, 54, 55, 56], spare := List.replicate 24 0 }

/-- The private key `3` on `small`. -/
def smallPriv : PrivateKey := { PublicKey := smallPub, D := 3 }

/-- The curve `y² = x³ - 3x + 37` over `F_59`: 53 points, generated by `(1, 25)`. -/
def mid : Curve := weierstrass 59 53 37 1 25

/-- The public key `2·G = (57, 34)` on `mid`. -/
def midPub : PublicKey := { Curve := mid, X := 57, Y := 34 }

/-- Modular exponentiation by repeated squaring, with at most `fuel` halvings of `e`. -/
def powModAux : Nat → Int → Nat → Int → Int
  | 0, _, _, m => 1 % m
  | fuel + 1, b, e, m =>
    if e = 0 then 1 % m
    else
      let h := powModAux fuel b (e / 2) m
      if e % 2 = 1 then h * h % m * b % m else h * h % m

/-- Square roots modulo a prime `p ≡ 3 (mod 4)` the way `big.Int.ModSqrt` finds them:
`x ^ ((p + 1) / 4) mod p` when that is a root of `x`, and nil when `x` is not a square. -/
def sqrt3Mod4 (x p : Int) : Option Int :=
  let z := powModAux p.natAbs x ((p.natAbs + 1) / 4) p
  if z * z % p = x % p then some z else none

/-- Contract of `big.Int.ModSqrt` for the modulus `P`: for a square `x` in `[0, P)` it
returns a square root of `x` in `[0, P)`. -/
def SqrtSpec (ModSqrt : Int → Int → Option Int) (P : Int) : Prop :=
  ∀ x y0 : Int, 0 ≤ x → x < P → 0 ≤ y0 → y0 < P → y0 * y0 % P = x →
    ∃ y, ModSqrt x P = some y ∧ 0 ≤ y ∧ y < P ∧ y * y % P = x

/-- The curve value `c` implements the group of the curve `y² = x³ - 3x + B` over `F_P`,
of order `N`: `Pt` is the group of points, `enc` gives the affine coordinates of a point,
with `(0, 0)` for the point at infinity, and the operations of `c` compute the group
operations on coordinates; `gen` is the base point. -/
structure GroupModel (c : Curve) {Pt : Type} [AddCommGroup Pt] (enc : Pt → Int × Int)
    (gen : Pt) : Prop where
  enc_zero : enc 0 = (0, 0)
  add_enc : ∀ Q R : Pt, c.Add (enc Q).1 (enc Q).2 (enc R).1 (enc R).2 = enc (Q + R)
  mult_enc : ∀ (Q : Pt) (k : List Byte),
    c.ScalarMult (enc Q).1 (enc Q).2 k = enc ((SetBytes k).toNat • Q)
  base_enc : ∀ k : List Byte, c.ScalarBaseMult k = enc ((SetBytes k).toNat • gen)
  order : ∀ Q : Pt, c.Params.N.toNat • Q = 0
  on_curve : ∀ Q : Pt, Q ≠ 0 →
    0 ≤ (enc Q).1 ∧ (enc Q).1 < c.Params.P ∧ 0 ≤ (enc Q).2 ∧ (enc Q).2 < c.Params.P ∧
    (enc Q).2 * (enc Q).2 % c.Params.P =
      ((enc Q).1 * (enc Q).1 * (enc Q).1 - 3 * (enc Q).1 + c.Params.B) % c.Params.P
  enc_neg : ∀ Q : Pt, enc (-Q) = ((enc Q).1, (-(enc Q).2) % c.Params.P)

/-- The curve value `c` implements a group in which every point has order dividing `N`,
and the x-coordinate of a point is that of its negative: `Pt` is the group of points,
`enc` gives the affine coordinates of a point, `gen` is the base point. -/
structure GroupLaws (c : Curve) {Pt : Type} [AddCommGroup Pt] (enc : Pt → Int × Int)
    (gen : Pt) : Prop where
  add_enc : ∀ Q R : Pt, c.Add (enc Q).1 (enc Q).2 (enc R).1 (enc R).2 = enc (Q + R)
  mult_enc : ∀ (Q : Pt) (k : List Byte),
    c.ScalarMult (enc Q).1 (enc Q).2 k = enc ((SetBytes k).toNat • Q)
  base_enc : ∀ k : List Byte, c.ScalarBaseMult k = enc ((SetBytes k).toNat • gen)
  order : ∀ Q : Pt, c.Params.N.toNat • Q = 0
  x_neg : ∀ Q : Pt, (enc (-Q)).1 = (enc Q).1

/-- Coordinates of the seven points `k·G` of `tiny`. -/
def tinyEnc (k : ZMod 7) : Int × Int :=
  [(0, 0), (2, 1), (8, 5), (10, 1), (10, 10), (8, 6), (2, 10)].getD k.val (0, 0)

/-- Coordinates of the 53 points `k·G` of `mid`. -/
def midEnc (k : ZMod 53) : Int × Int :=
  [(0, 0), (1, 25), (57, 34), (10, 2), (5, 18), (45, 52), (54, 35), (33, 48), (53, 4), (14,
    54), (20, 37), (8, 42), (27, 13), (56, 14), (28, 4), (51, 27), (34, 2), (13, 37), (46,
    48), (15, 57), (41, 10), (7, 51), (37, 55), (43, 58), (40, 16), (39, 11), (26, 37), (26,
    22), (39, 48), (40, 43), (43, 1), (37, 4), (7, 8), (41, 49), (15, 2), (46, 11), (13,
    22), (34, 57), (51, 32), (28, 55), (56, 45), (27, 46), (8, 17), (20, 22), (14, 5), (53,
    55), (33, 11), (54, 24), (45, 7), (5, 41), (10, 57), (57, 25), (1, 34)].getD k.val (0, 0)

/-- Value of a bit string, most significant bit first, continuing from `v`. -/
def bitsVal (bits : List Bool) (v : Nat) : Nat :=
  bits.foldl (fun v b => 2 * v + (if b then 1 else 0)) v

/-- The private key `2` on `tiny`, with public key `2·G = (8, 5)`. -/
def tinyPriv2 : PrivateKey := { PublicKey := { Curve := tiny, X := 8, Y := 5 }, D := 2 }

/-- A 32-byte digest: the eight bytes of "12345678" followed by 24 zero bytes. -/
def digest32 : ByteSlice :=
  { data := [49, 50, 51, 52, 53, 54, 55, 56] ++ List.replicate 24 0, spare := [] }

/-- The SM2 curve of GB/T 32918 (`y² = x³ - 3x + B` over its prime field) with inversion
modulo its order: the value of `sm2.Sm2P256Curve`. -/
def sm2Std : Sm2P256Curve where
  curve :=
    weierstrass
      115792089210356248756420345214020892766250353991924191454421193933289684991999
      115792089210356248756420345214020892766061623724957744567843809356293439045923
      18505919022281880113072981827955639221458448578012075254857346196103069175443
      22963146547237050559479531362550074578802567295341616970375194840604139615431
      85132369209828568825618990617112496413088388631904505083283536607588877201568
  Inverse := fun k =>
    (ModInverse k
      115792089210356248756420345214020892766061623724957744567843809356293439045923).getD 0

/-- The private key `2` on the SM2 curve, with public key `2·G`. -/
def sm2Priv : PrivateKey :=
  { PublicKey :=
      { Curve := sm2Std.curve
        X := 39264624226210491828350299246801547995169179683885222662092227069188840275282
        Y := 22488263119165336147085100012701851696717994160539376183636150600277949031363 }
    D := 2 }

/-- A 32-byte digest whose value is `(N - 1 - Gx) mod N` for the SM2 curve. -/
def digestSm2 : ByteSlice :=
  { data := [205, 59, 81, 210, 224, 230, 126, 230, 160, 102, 251, 185, 149, 198, 54, 106,
      226, 32, 211, 171, 47, 95, 249, 73, 226, 97, 174, 128, 6, 136, 204, 91]
    spare := [] }

/-! ## Facts about the `math/big` operations -/

theorem invAux_sound (m : Nat) (g : Int) :
    ∀ (fuel r0 r1 : Nat) (s0 s1 x : Int),
      (r0 : Int) ≡ s0 * g [ZMOD m] → (r1 : Int) ≡ s1 * g [ZMOD m] →
      invAux fuel r0 r1 s0 s1 = some x → x * g ≡ 1 [ZMOD m] := by
  intro fuel
  induction fuel with
  | zero => intro r0 r1 s0 s1 x _ _ h; simp [invAux] at h
  | succ f ih =>
    intro r0 r1 s0 s1 x h0 h1 h
    unfold invAux at h
    by_cases hr1 : r1 = 0
    · simp only [hr1, if_true] at h
      by_cases hr0 : r0 = 1
      · simp only [hr0, if_true, Option.some.injEq] at h
        subst h
        subst hr0
        simpa using h0.symm
      · simp [hr0] at h
    · simp only [hr1, if_false] at h
      refine ih r1 (r0 % r1) s1 (s0 - ((r0 / r1 : Nat) : Int) * s1) x h1 ?_ h
      have hdiv : ((r0 % r1 : Nat) : Int) = (r0 : Int) - ((r0 / r1 : Nat) : Int) * (r1 : Int) := by
        have := Nat.mod_add_div r0 r1
        have h2 : ((r0 % r1 : Nat) : Int) + (r1 : Int) * ((r0 / r1 : Nat) : Int) = (r0 : Int) := by
          exact_mod_cast this
        linarith
      rw [hdiv, sub_mul, mul_assoc]
      exact Int.ModEq.sub h0 (Int.ModEq.mul_left _ h1)

theorem invAux_complete :
    ∀ (fuel r0 r1 : Nat) (s0 s1 : Int), r1 < fuel → Nat.gcd r0 r1 = 1 →
      ∃ x, invAux fuel r0 r1 s0 s1 = some x := by
  intro fuel
  induction fuel with
  | zero => intro r0 r1 s0 s1 h; omega
  | succ f ih =>
    intro r0 r1 s0 s1 hlt hg
    unfold invAux
    by_cases hr1 : r1 = 0
    · subst hr1
      simp only [Nat.gcd_zero_right] at hg
      simp [hg]
    · simp only [hr1, if_false]
      apply ih
      · have := Nat.mod_lt r0 (Nat.pos_of_ne_zero hr1)
        omega
      · rw [Nat.gcd_comm, ← Nat.gcd_rec, Nat.gcd_comm]
        exact hg

theorem ModInverse_spec {g n w : Int} (hn : 0 < n) (h : ModInverse g n = some w) :
    0 ≤ w ∧ w < n ∧ g * w ≡ 1 [ZMOD n] := by
  unfold ModInverse at h
  have habs : ((n.natAbs : Nat) : Int) = n := Int.natAbs_of_nonneg hn.le
  rw [habs] at h
  obtain ⟨x, hx, rfl⟩ := Option.map_eq_some'.mp h
  refine ⟨Int.emod_nonneg _ hn.ne', Int.emod_lt_of_pos _ hn, ?_⟩
  have hg0 : 0 ≤ g % n := Int.emod_nonneg _ hn.ne'
  have key := invAux_sound n.natAbs g _ _ _ 0 1 x (by rw [habs]; simp [Int.ModEq])
    (by rw [habs, Int.toNat_of_nonneg hg0, one_mul]; exact Int.mod_modEq g n) hx
  rw [habs] at key
  calc g * (x % n) ≡ g * x [ZMOD n] := Int.ModEq.mul_left _ (Int.mod_modEq x n)
    _ ≡ 1 [ZMOD n] := by rw [mul_comm]; exact key

theorem ModInverse_exists {g n : Int} (hn : 0 < n) (h : Int.gcd g n = 1) :
    ∃ w, ModInverse g n = some w := by
  unfold ModInverse
  have habs : ((n.natAbs : Nat) : Int) = n := Int.natAbs_of_nonneg hn.le
  rw [habs]
  have hg0 : 0 ≤ g % n := Int.emod_nonneg _ hn.ne'
  have hlt : (g % n).toNat < n.natAbs + 2 := by
    have := Int.emod_lt_of_pos g hn
    omega
  have hgcd : Nat.gcd n.natAbs (g % n).toNat = 1 := by
    have hco : IsCoprime g n := Int.isCoprime_iff_gcd_eq_one.mpr h
    have hco2 : IsCoprime (g % n) n := by
      have e : g % n = g + n * (-(g / n)) := by rw [Int.emod_def]; ring
      rw [e]
      exact hco.add_mul_left_left _
    have h1 := Int.isCoprime_iff_gcd_eq_one.mp hco2
    rw [Int.gcd_eq_natAbs] at h1
    have e2 : (g % n).natAbs = (g % n).toNat := by omega
    rw [Nat.gcd_comm, ← e2]
    exact h1
  obtain ⟨x, hx⟩ := invAux_complete _ _ _ 0 1 hlt hgcd
  exact ⟨_, by rw [hx]; rfl⟩

theorem ModInverse_none {g n : Int} (hn : 0 < n) (h : Int.gcd g n ≠ 1) :
    ModInverse g n = none := by
  cases hm : ModInverse g n with
  | none => rfl
  | some w =>
    exfalso
    apply h
    have := (ModInverse_spec hn hm).2.2
    have hco : IsCoprime g n := by
      obtain ⟨k, hk⟩ := (Int.modEq_iff_dvd.mp this)
      exact ⟨w, k, by linarith⟩
    exact Int.isCoprime_iff_gcd_eq_one.mp hco

/-- What a successful `WeakECDSASign` computed. -/
theorem WeakECDSASign_some {rand : Int} {priv : PrivateKey} {hash : ByteSlice} {r s : Int}
    (h : WeakECDSASign rand priv hash = some (some (r, s))) :
    priv.PublicKey.Curve.Params.N ≠ 0 ∧
    r = (priv.PublicKey.Curve.ScalarBaseMult (Bytes rand)).1 % priv.PublicKey.Curve.Params.N ∧
    r ≠ 0 ∧ s ≠ 0 ∧
    ∃ kInv, ModInverse rand priv.PublicKey.Curve.Params.N = some kInv ∧
      s = (priv.D * r + hashToInt hash priv.PublicKey.Curve) * kInv
            % priv.PublicKey.Curve.Params.N := by
  unfold WeakECDSASign at h
  simp only [bind, pure, Option.some_bind] at h
  split_ifs at h with h1 h2
  · simp at h
  · simp at h
  · cases hk : ModInverse rand priv.PublicKey.Curve.Params.N with
    | none => rw [hk] at h; simp at h
    | some kInv =>
      rw [hk] at h
      simp only [Option.some_bind] at h
      split_ifs at h with h3
      · simp at h
      · simp only [Option.some.injEq, Prod.mk.injEq] at h
        obtain ⟨hr, hs⟩ := h
        subst hr
        subst hs
        exact ⟨h1, rfl, h2, h3, kInv, rfl, rfl⟩

/-- The result of `RecoverECDSAPrivKeyFromLinearRelationship` once both inverses exist
and the integer `d2` is not `0`. -/
theorem recoverECDSA_eval (pub : PublicKey) (digest : ByteSlice) (sig1 sig2 : ecSignature)
    (a b w1 w2 : Int) (hN : pub.Curve.Params.N ≠ 0)
    (hw1 : ModInverse sig1.S pub.Curve.Params.N = some w1)
    (hw2 : ModInverse sig2.S pub.Curve.Params.N = some w2)
    (hd2 : sig2.R * w2 - sig1.R * (a * w1) ≠ 0) :
    RecoverECDSAPrivKeyFromLinearRelationship pub digest sig1 sig2 a b =
      some (some
        { PublicKey := pub
          D := (b - hashToInt digest pub.Curve * (w2 - a * w1)) % pub.Curve.Params.N *
                (ModInverse (sig2.R * w2 - sig1.R * (a * w1)) pub.Curve.Params.N).getD
                  (sig2.R * w2 - sig1.R * (a * w1)) % pub.Curve.Params.N }) := by
  unfold RecoverECDSAPrivKeyFromLinearRelationship
  simp only [bind, pure, hw1, hw2, Option.some_bind, Mod, hN, if_false, hd2]

theorem prime_pos {N : Int} (hN : Nat.Prime N.toNat) : 0 < N := by
  have := hN.pos
  omega

theorem gcd_eq_one_of_prime {N x : Int} (hN : Nat.Prime N.toNat) (hx : ¬ x ≡ 0 [ZMOD N]) :
    Int.gcd x N = 1 := by
  have hpos := prime_pos hN
  have hp : Prime N := by
    have h1 : Prime ((N.toNat : Nat) : Int) := Nat.prime_iff_prime_int.mp hN
    rwa [Int.toNat_of_nonneg hpos.le] at h1
  rw [Int.gcd_comm]
  refine Int.isCoprime_iff_gcd_eq_one.mp ((Prime.coprime_iff_not_dvd hp).2 ?_)
  intro hdvd
  exact hx (Int.modEq_zero_iff_dvd.mpr hdvd)

/-- Two representatives in `[0, N)` of one residue are equal. -/
theorem eq_of_modEq_of_range {N x y : Int} (h : x ≡ y [ZMOD N])
    (hx0 : 0 ≤ x) (hxN : x < N) (hy0 : 0 ≤ y) (hyN : y < N) : x = y := by
  have h1 := Int.emod_eq_of_lt hx0 hxN
  have h2 := Int.emod_eq_of_lt hy0 hyN
  unfold Int.ModEq at h
  omega

/-- The two signing equations and the nonce relation, with inverses of `s1` and `s2`,
give the linear equation for the key that the recovery solves. -/
theorem ecdsa_key_equation {p : Nat} {D e a b k1 k2 r1 s1 r2 s2 ki1 ki2 w1 w2 : Int}
    (hki1 : k1 * ki1 ≡ 1 [ZMOD (p : Int)]) (hki2 : k2 * ki2 ≡ 1 [ZMOD (p : Int)])
    (hs1 : s1 ≡ (D * r1 + e) * ki1 [ZMOD (p : Int)])
    (hs2 : s2 ≡ (D * r2 + e) * ki2 [ZMOD (p : Int)])
    (hk : k2 ≡ a * k1 + b [ZMOD (p : Int)])
    (hw1 : s1 * w1 ≡ 1 [ZMOD (p : Int)]) (hw2 : s2 * w2 ≡ 1 [ZMOD (p : Int)]) :
    D * (r2 * w2 - r1 * (a * w1)) ≡ b - e * (w2 - a * w1) [ZMOD (p : Int)] := by
  rw [← ZMod.intCast_eq_intCast_iff] at *
  push_cast at *
  have e1 : (s1 : ZMod p) * k1 = D * r1 + e := by
    rw [hs1]; linear_combination ((D : ZMod p) * r1 + e) * hki1
  have e2 : (s2 : ZMod p) * k2 = D * r2 + e := by
    rw [hs2]; linear_combination ((D : ZMod p) * r2 + e) * hki2
  have f1 : (k1 : ZMod p) = w1 * (D * r1 + e) := by
    linear_combination (-(k1 : ZMod p)) * hw1 + (w1 : ZMod p) * e1
  have f2 : (k2 : ZMod p) = w2 * (D * r2 + e) := by
    linear_combination (-(k2 : ZMod p)) * hw2 + (w2 : ZMod p) * e2
  linear_combination (-1 : ZMod p) * f2 + (a : ZMod p) * f1 + hk

/-- A nonzero residue modulo a prime has a `ModInverse`. -/
theorem ModInverse_of_prime {N x : Int} (hN : Nat.Prime N.toNat) (hx : ¬ x ≡ 0 [ZMOD N]) :
    ∃ w, ModInverse x N = some w ∧ 0 ≤ w ∧ w < N ∧ x * w ≡ 1 [ZMOD N] := by
  obtain ⟨w, hw⟩ := ModInverse_exists (prime_pos hN) (gcd_eq_one_of_prime hN hx)
  exact ⟨w, hw, ModInverse_spec (prime_pos hN) hw⟩

/-- A value reduced modulo `N` that is not `0` is not congruent to `0`. -/
theorem not_modEq_zero_of_emod {N x y : Int} (hy : y = x % N) (h0 : y ≠ 0) :
    ¬ y ≡ 0 [ZMOD N] := by
  intro h
  apply h0
  have : y % N = y := by rw [hy]; exact Int.emod_emod_of_dvd x dvd_rfl
  rw [← this]
  simpa [Int.ModEq] using h

/-- Inverses modulo `N` of one element are congruent. -/
theorem inverse_unique {N s v w : Int} (hv : s * v ≡ 1 [ZMOD N]) (hw : s * w ≡ 1 [ZMOD N]) :
    v ≡ w [ZMOD N] := by
  have h1 : v * (s * w) ≡ v * 1 [ZMOD N] := Int.ModEq.mul_left v hw
  have h2 : (s * v) * w ≡ 1 * w [ZMOD N] := Int.ModEq.mul_right w hv
  have e : v * (s * w) = (s * v) * w := by ring
  rw [e, mul_one] at h1
  rw [one_mul] at h2
  exact h1.symm.trans h2

/-- C1. ECDSA key recovery is correct: on a curve of prime order `N`, for a private key
`0 < D < N`, a digest `h` and nonces with `k2 ≡ a * k1 + b (mod N)`, if `WeakECDSASign`
returns the non-nil signatures `(r1, s1)` under `k1` and `(r2, s2)` under `k2`, and
`r2 * s2⁻¹ - a * r1 * s1⁻¹` is not congruent to `0` modulo `N` (`w1`, `w2` any inverses of
`s1`, `s2` modulo `N`), then `RecoverECDSAPrivKeyFromLinearRelationship` returns a non-nil
private key with the public key it was given and with `D` the original key. -/
theorem recoverECDSA_correct (pub : PublicKey) (D : Int) (h : ByteSlice)
    (a b k1 k2 r1 s1 r2 s2 w1 w2 : Int)
    (hN : Nat.Prime pub.Curve.Params.N.toNat)
    (hD0 : 0 < D) (hDN : D < pub.Curve.Params.N)
    (hk : k2 ≡ a * k1 + b [ZMOD pub.Curve.Params.N])
    (h1 : WeakECDSASign k1 { PublicKey := pub, D := D } h = some (some (r1, s1)))
    (h2 : WeakECDSASign k2 { PublicKey := pub, D := D } h = some (some (r2, s2)))
    (hw1 : s1 * w1 ≡ 1 [ZMOD pub.Curve.Params.N])
    (hw2 : s2 * w2 ≡ 1 [ZMOD pub.Curve.Params.N])
    (hd : ¬ r2 * w2 - a * r1 * w1 ≡ 0 [ZMOD pub.Curve.Params.N]) :
    RecoverECDSAPrivKeyFromLinearRelationship pub h ⟨r1, s1⟩ ⟨r2, s2⟩ a b =
      some (some { PublicKey := pub, D := D }) := by
  obtain ⟨hN0, -, -, hs1, ki1, hki1, hs1e⟩ := WeakECDSASign_some h1
  obtain ⟨-, -, -, hs2, ki2, hki2, hs2e⟩ := WeakECDSASign_some h2
  dsimp only at hN0 hs1e hs2e hki1 hki2
  have hpos := prime_pos hN
  have hNp : ((pub.Curve.Params.N.toNat : Nat) : Int) = pub.Curve.Params.N :=
    Int.toNat_of_nonneg hpos.le
  obtain ⟨v1, hv1, -, -, hv1e⟩ := ModInverse_of_prime hN (not_modEq_zero_of_emod hs1e hs1)
  obtain ⟨v2, hv2, -, -, hv2e⟩ := ModInverse_of_prime hN (not_modEq_zero_of_emod hs2e hs2)
  have hvw1 := inverse_unique hv1e hw1
  have hvw2 := inverse_unique hv2e hw2
  have hd2 : ¬ r2 * v2 - r1 * (a * v1) ≡ 0 [ZMOD pub.Curve.Params.N] := by
    intro hc
    apply hd
    have : r2 * w2 - a * r1 * w1 ≡ r2 * v2 - r1 * (a * v1) [ZMOD pub.Curve.Params.N] := by
      have e : r1 * (a * v1) = a * r1 * v1 := by ring
      rw [e]
      exact Int.ModEq.sub (Int.ModEq.mul_left _ hvw2.symm) (Int.ModEq.mul_left _ hvw1.symm)
    exact this.trans hc
  have hd2ne : r2 * v2 - r1 * (a * v1) ≠ 0 := by
    intro hc
    apply hd2
    rw [hc]
  obtain ⟨di, hdi, -, -, hdie⟩ := ModInverse_of_prime hN hd2
  have hkey : D * (r2 * v2 - r1 * (a * v1)) ≡
      b - hashToInt h pub.Curve * (v2 - a * v1) [ZMOD pub.Curve.Params.N] := by
    have hm1 := (ModInverse_spec hpos hki1).2.2
    have hm2 := (ModInverse_spec hpos hki2).2.2
    have hs1m : s1 ≡ (D * r1 + hashToInt h pub.Curve) * ki1 [ZMOD pub.Curve.Params.N] := by
      rw [hs1e]; exact Int.mod_modEq _ _
    have hs2m : s2 ≡ (D * r2 + hashToInt h pub.Curve) * ki2 [ZMOD pub.Curve.Params.N] := by
      rw [hs2e]; exact Int.mod_modEq _ _
    rw [← hNp] at hm1 hm2 hs1m hs2m hk hv1e hv2e ⊢
    exact ecdsa_key_equation hm1 hm2 hs1m hs2m hk hv1e hv2e
  rw [recoverECDSA_eval pub h ⟨r1, s1⟩ ⟨r2, s2⟩ a b v1 v2 hN0 hv1 hv2 hd2ne]
  dsimp only
  rw [hdi, Option.getD_some]
  congr 3
  refine eq_of_modEq_of_range ?_ (Int.emod_nonneg _ hN0) (Int.emod_lt_of_pos _ hpos) hD0.le hDN
  calc (b - hashToInt h pub.Curve * (v2 - a * v1)) % pub.Curve.Params.N * di
          % pub.Curve.Params.N
      ≡ (b - hashToInt h pub.Curve * (v2 - a * v1)) % pub.Curve.Params.N * di
          [ZMOD pub.Curve.Params.N] := Int.mod_modEq _ _
    _ ≡ (b - hashToInt h pub.Curve * (v2 - a * v1)) * di [ZMOD pub.Curve.Params.N] :=
        Int.ModEq.mul_right _ (Int.mod_modEq _ _)
    _ ≡ D * (r2 * v2 - r1 * (a * v1)) * di [ZMOD pub.Curve.Params.N] :=
        Int.ModEq.mul_right _ hkey.symm
    _ ≡ D [ZMOD pub.Curve.Params.N] := by
        have := Int.ModEq.mul_left D hdie
        rw [mul_one, ← mul_assoc] at this
        exact this

theorem tiny_prime : Nat.Prime tiny.Params.N.toNat := by
  show Nat.Prime 7
  norm_num

theorem small_prime : Nat.Prime small.Params.N.toNat := by
  show Nat.Prime 131
  norm_num

/-- C1 at a concrete input: key `3` on `tiny`, nonces `3` and `100 = 22 * 3 + 34`. -/
theorem recoverECDSA_correct_witness :
    WeakECDSASign 3 tinyPriv digest12345678 = some (some (3, 1)) ∧
    WeakECDSASign 100 tinyPriv digest12345678 = some (some (1, 2)) ∧
    RecoverECDSAPrivKeyFromLinearRelationship tinyPub digest12345678 ⟨3, 1⟩ ⟨1, 2⟩ 22 34 =
      some (some tinyPriv) :=
  ⟨by decide, by decide,
    recoverECDSA_correct tinyPub 3 digest12345678 22 34 3 100 3 1 1 2 1 4
      tiny_prime (by decide) (by decide) (by decide)
      (by decide) (by decide) (by decide) (by decide) (by decide)⟩

/-- What a successful `WeakSM2Sign` computed. -/
theorem WeakSM2Sign_some {sm2P256 : Sm2P256Curve} {rand : Int} {priv : PrivateKey}
    {hash : ByteSlice} {r s : Int}
    (h : WeakSM2Sign sm2P256 rand priv hash = some (some (r, s))) :
    priv.PublicKey.Curve.Params.N ≠ 0 ∧
    (∃ h32, hash.upTo 32 = some h32 ∧
      r = (SetBytes h32 + (sm2P256.curve.ScalarBaseMult (Bytes rand)).1)
            % priv.PublicKey.Curve.Params.N) ∧
    r ≠ 0 ∧ r + rand ≠ priv.PublicKey.Curve.Params.N ∧ s ≠ 0 ∧
    s = (rand - r * priv.D % priv.PublicKey.Curve.Params.N) % priv.PublicKey.Curve.Params.N *
          sm2P256.Inverse ((1 + priv.D) % priv.PublicKey.Curve.Params.N)
          % priv.PublicKey.Curve.Params.N := by
  unfold WeakSM2Sign at h
  cases hu : hash.upTo 32 with
  | none => simp [hu, bind] at h
  | some h32 =>
    by_cases hN : priv.PublicKey.Curve.Params.N = 0
    · simp [hu, bind, Mod, hN] at h
    · simp only [hu, bind, pure, Option.some_bind, Mod, hN, if_false] at h
      split_ifs at h with h1 h2 h3
      · simp at h
      · simp at h
      · simp at h
      · simp only [Option.some.injEq, Prod.mk.injEq] at h
        obtain ⟨hr, hs⟩ := h
        subst hr
        subst hs
        exact ⟨hN, ⟨h32, rfl, rfl⟩, h1, h2, h3, rfl⟩

/-- The SM2 signing equation: `k ≡ s + D * (s + r) (mod N)`. -/
theorem sm2_nonce_equation {p : Nat} {D k r s i : Int}
    (hi : (1 + D) * i ≡ 1 [ZMOD (p : Int)])
    (hs : s ≡ (k - r * D) * i [ZMOD (p : Int)]) :
    k ≡ s + D * (s + r) [ZMOD (p : Int)] := by
  rw [← ZMod.intCast_eq_intCast_iff] at *
  push_cast at *
  rw [hs]
  linear_combination (-((k : ZMod p) - r * D)) * hi

/-- Two SM2 signing equations and the nonce relation give the linear equation for the key. -/
theorem sm2_key_equation {p : Nat} {D a b k1 k2 r1 s1 r2 s2 : Int}
    (h1 : k1 ≡ s1 + D * (s1 + r1) [ZMOD (p : Int)])
    (h2 : k2 ≡ s2 + D * (s2 + r2) [ZMOD (p : Int)])
    (hk : k2 ≡ a * k1 + b [ZMOD (p : Int)]) :
    D * ((s2 + r2) - a * (s1 + r1)) ≡ b - (s2 - a * s1) [ZMOD (p : Int)] := by
  rw [← ZMod.intCast_eq_intCast_iff] at *
  push_cast at *
  linear_combination (-1 : ZMod p) * h2 + (a : ZMod p) * h1 + hk

/-- The signing equation of a successful `WeakSM2Sign`, when `Inverse` inverts modulo the
prime order and `1 + D` is invertible. -/
theorem WeakSM2Sign_equation {sm2P256 : Sm2P256Curve} {rand : Int} (priv : PrivateKey)
    {hash : ByteSlice} {r s : Int}
    (hN : Nat.Prime priv.PublicKey.Curve.Params.N.toNat)
    (hInv : InvertsModulo sm2P256 priv.PublicKey.Curve.Params.N)
    (hD : ¬ 1 + priv.D ≡ 0 [ZMOD priv.PublicKey.Curve.Params.N])
    (h : WeakSM2Sign sm2P256 rand priv hash = some (some (r, s))) :
    rand ≡ s + priv.D * (s + r) [ZMOD priv.PublicKey.Curve.Params.N] := by
  obtain ⟨hN0, -, -, -, -, hs⟩ := WeakSM2Sign_some h
  have hpos := prime_pos hN
  have hNp : ((priv.PublicKey.Curve.Params.N.toNat : Nat) : Int) = priv.PublicKey.Curve.Params.N :=
    Int.toNat_of_nonneg hpos.le
  have hne : (1 + priv.D) % priv.PublicKey.Curve.Params.N ≠ 0 := by
    intro hc
    exact hD (by simpa [Int.ModEq] using hc)
  have h1 : 1 ≤ (1 + priv.D) % priv.PublicKey.Curve.Params.N := by
    have := Int.emod_nonneg (1 + priv.D) hN0
    omega
  have hi := hInv _ h1 (Int.emod_lt_of_pos _ hpos)
  have hi2 : (1 + priv.D) * sm2P256.Inverse ((1 + priv.D) % priv.PublicKey.Curve.Params.N)
      ≡ 1 [ZMOD priv.PublicKey.Curve.Params.N] :=
    (Int.ModEq.mul_right _ (Int.mod_modEq _ _).symm).trans hi
  have hs2 : s ≡ (rand - r * priv.D) *
      sm2P256.Inverse ((1 + priv.D) % priv.PublicKey.Curve.Params.N)
      [ZMOD priv.PublicKey.Curve.Params.N] := by
    rw [hs]
    refine (Int.mod_modEq _ _).trans (Int.ModEq.mul_right _ ?_)
    exact (Int.mod_modEq _ _).trans (Int.ModEq.sub_left _ (Int.mod_modEq _ _))
  rw [← hNp] at hi2 hs2 ⊢
  exact sm2_nonce_equation hi2 hs2

/-- The result of `RecoverSM2PrivKeyFromLinearRelationship` for a nonzero modulus. -/
theorem recoverSM2_eval (pub : PublicKey) (sig1 sig2 : ecSignature) (a b : Int)
    (hN : pub.Curve.Params.N ≠ 0) :
    RecoverSM2PrivKeyFromLinearRelationship pub sig1 sig2 a b =
      if (sig2.S + sig2.R - a * (sig1.S + sig1.R)) % pub.Curve.Params.N = 0 then some none
      else some (some
        { PublicKey := pub
          D := (b - (sig2.S - a * sig1.S) % pub.Curve.Params.N) *
                (ModInverse ((sig2.S + sig2.R - a * (sig1.S + sig1.R)) % pub.Curve.Params.N)
                    pub.Curve.Params.N).getD
                  ((sig2.S + sig2.R - a * (sig1.S + sig1.R)) % pub.Curve.Params.N)
                % pub.Curve.Params.N }) := by
  unfold RecoverSM2PrivKeyFromLinearRelationship
  simp only [bind, pure, Option.some_bind, Mod, hN, if_false]

/-- `RecoverSM2PrivKeyFromLinearRelationship` returns nil when `dt ≡ 0 (mod N)`. -/
theorem recoverSM2_nil_of_modEq (pub : PublicKey) (sig1 sig2 : ecSignature) (a b : Int)
    (hN : pub.Curve.Params.N ≠ 0)
    (h : (sig2.S + sig2.R) - a * (sig1.S + sig1.R) ≡ 0 [ZMOD pub.Curve.Params.N]) :
    RecoverSM2PrivKeyFromLinearRelationship pub sig1 sig2 a b = some none := by
  rw [recoverSM2_eval pub sig1 sig2 a b hN]
  have hc : (sig2.S + sig2.R - a * (sig1.S + sig1.R)) % pub.Curve.Params.N = 0 := by
    simpa [Int.ModEq] using h
  rw [if_pos hc]

/-- C2. SM2 key recovery is correct: for prime order `N`, `Inverse` inverting modulo `N`,
a private key `0 < D < N` with `1 + D` invertible, and nonces with
`k2 ≡ a * k1 + b (mod N)`, if `WeakSM2Sign` returns the non-nil signatures `(r1, s1)` under
`k1` and `(r2, s2)` under `k2` and `(s2 + r2) - a * (s1 + r1)` is not congruent to `0`
modulo `N`, then `RecoverSM2PrivKeyFromLinearRelationship` returns a non-nil key with the
original `D`, and `D = (b - (s2 - a * s1)) * v mod N` for the inverse `v` of
`(s2 + r2) - a * (s1 + r1)` modulo `N`. -/
theorem recoverSM2_correct (sm2P256 : Sm2P256Curve) (pub : PublicKey) (D : Int)
    (h : ByteSlice) (a b k1 k2 r1 s1 r2 s2 : Int)
    (hN : Nat.Prime pub.Curve.Params.N.toNat)
    (hInv : InvertsModulo sm2P256 pub.Curve.Params.N)
    (hD0 : 0 < D) (hDN : D < pub.Curve.Params.N)
    (hD1 : ¬ 1 + D ≡ 0 [ZMOD pub.Curve.Params.N])
    (hk : k2 ≡ a * k1 + b [ZMOD pub.Curve.Params.N])
    (h1 : WeakSM2Sign sm2P256 k1 { PublicKey := pub, D := D } h = some (some (r1, s1)))
    (h2 : WeakSM2Sign sm2P256 k2 { PublicKey := pub, D := D } h = some (some (r2, s2)))
    (hd : ¬ (s2 + r2) - a * (s1 + r1) ≡ 0 [ZMOD pub.Curve.Params.N]) :
    RecoverSM2PrivKeyFromLinearRelationship pub ⟨r1, s1⟩ ⟨r2, s2⟩ a b =
        some (some { PublicKey := pub, D := D }) ∧
    ∃ v, ((s2 + r2) - a * (s1 + r1)) * v ≡ 1 [ZMOD pub.Curve.Params.N] ∧
      D = (b - (s2 - a * s1)) * v % pub.Curve.Params.N := by
  have e1 := WeakSM2Sign_equation { PublicKey := pub, D := D } hN hInv hD1 h1
  have e2 := WeakSM2Sign_equation { PublicKey := pub, D := D } hN hInv hD1 h2
  dsimp only at e1 e2
  have hpos := prime_pos hN
  have hN0 : pub.Curve.Params.N ≠ 0 := hpos.ne'
  have hNp : ((pub.Curve.Params.N.toNat : Nat) : Int) = pub.Curve.Params.N :=
    Int.toNat_of_nonneg hpos.le
  have hkey : D * ((s2 + r2) - a * (s1 + r1)) ≡ b - (s2 - a * s1)
      [ZMOD pub.Curve.Params.N] := by
    rw [← hNp] at e1 e2 hk ⊢
    exact sm2_key_equation e1 e2 hk
  have hdm : ¬ (s2 + r2 - a * (s1 + r1)) % pub.Curve.Params.N ≡ 0
      [ZMOD pub.Curve.Params.N] := fun hc => hd ((Int.mod_modEq _ _).symm.trans hc)
  obtain ⟨v, hv, -, -, hve⟩ := ModInverse_of_prime hN hdm
  have hve2 : ((s2 + r2) - a * (s1 + r1)) * v ≡ 1 [ZMOD pub.Curve.Params.N] :=
    (Int.ModEq.mul_right _ (Int.mod_modEq _ _).symm).trans hve
  have hDv : D ≡ (b - (s2 - a * s1)) * v [ZMOD pub.Curve.Params.N] := by
    have h3 := Int.ModEq.mul_left D hve2
    rw [mul_one, ← mul_assoc] at h3
    exact h3.symm.trans (Int.ModEq.mul_right _ hkey)
  have hDeq : D = (b - (s2 - a * s1)) * v % pub.Curve.Params.N :=
    (eq_of_modEq_of_range ((Int.mod_modEq _ _).trans hDv.symm)
      (Int.emod_nonneg _ hN0) (Int.emod_lt_of_pos _ hpos) hD0.le hDN).symm
  refine ⟨?_, v, hve2, hDeq⟩
  rw [recoverSM2_eval pub ⟨r1, s1⟩ ⟨r2, s2⟩ a b hN0]
  dsimp only
  have hne : (s2 + r2 - a * (s1 + r1)) % pub.Curve.Params.N ≠ 0 := by
    intro hc
    exact hd (by simpa [Int.ModEq] using hc)
  rw [if_neg hne, hv, Option.getD_some]
  congr 3
  refine eq_of_modEq_of_range ?_ (Int.emod_nonneg _ hN0) (Int.emod_lt_of_pos _ hpos) hD0.le hDN
  refine (Int.mod_modEq _ _).trans ?_
  refine Int.ModEq.trans ?_ hDv.symm
  exact Int.ModEq.mul_right _ (Int.ModEq.sub_left _ (Int.mod_modEq _ _))

theorem tinySm2_inverts : InvertsModulo tinySm2 tinyPub.Curve.Params.N := by
  intro k h1 h2
  have h3 : k < 7 := h2
  interval_cases k <;> decide

/-- C2 at a concrete input, the scenario of the test: key `3` on `tiny`, `a = b = 0`,
nonces `3` and `0`. -/
theorem recoverSM2_correct_witness :
    WeakSM2Sign tinySm2 3 tinyPriv digest12345678 = some (some (2, 1)) ∧
    WeakSM2Sign tinySm2 0 tinyPriv digest12345678 = some (some (6, 6)) ∧
    RecoverSM2PrivKeyFromLinearRelationship tinyPub ⟨2, 1⟩ ⟨6, 6⟩ 0 0 = some (some tinyPriv) :=
  ⟨by decide, by decide,
    (recoverSM2_correct tinySm2 tinyPub 3 digest12345678 0 0 3 0 2 1 6 6
      tiny_prime tinySm2_inverts (by decide) (by decide) (by decide) (by decide)
      (by decide) (by decide) (by decide)).1⟩

/-- C4. For a nonzero order `N`, `RecoverSM2PrivKeyFromLinearRelationship` returns nil
exactly when `dt = (s2 + r2) - a * (s1 + r1)` is congruent to `0` modulo `N`; and for a
positive (in particular a prime) `N` and every other input it returns a non-nil key whose
`D` lies in `[0, N)`. -/
theorem recoverSM2_nil_iff (pub : PublicKey) (sig1 sig2 : ecSignature) (a b : Int)
    (hN : pub.Curve.Params.N ≠ 0) :
    (RecoverSM2PrivKeyFromLinearRelationship pub sig1 sig2 a b = some none ↔
      (sig2.S + sig2.R) - a * (sig1.S + sig1.R) ≡ 0 [ZMOD pub.Curve.Params.N]) ∧
    (0 < pub.Curve.Params.N →
      ¬ (sig2.S + sig2.R) - a * (sig1.S + sig1.R) ≡ 0 [ZMOD pub.Curve.Params.N] →
      ∃ key, RecoverSM2PrivKeyFromLinearRelationship pub sig1 sig2 a b = some (some key) ∧
        key.PublicKey = pub ∧ 0 ≤ key.D ∧ key.D < pub.Curve.Params.N) := by
  rw [recoverSM2_eval pub sig1 sig2 a b hN]
  have hiff : (sig2.S + sig2.R - a * (sig1.S + sig1.R)) % pub.Curve.Params.N = 0 ↔
      (sig2.S + sig2.R) - a * (sig1.S + sig1.R) ≡ 0 [ZMOD pub.Curve.Params.N] := by
    simp [Int.ModEq]
  constructor
  · rw [← hiff]
    split_ifs with hc
    · simp [hc]
    · simp [hc]
  · intro hpos hne
    rw [← hiff] at hne
    rw [if_neg hne]
    exact ⟨_, rfl, rfl, Int.emod_nonneg _ hN, Int.emod_lt_of_pos _ hpos⟩

/-- C4 at concrete inputs on `tiny`: a degenerate pair with `dt ≡ 0`, and a pair with `dt`
not `0`. -/
theorem recoverSM2_nil_iff_witness :
    RecoverSM2PrivKeyFromLinearRelationship tinyPub ⟨6, 6⟩ ⟨2, 1⟩ 2 3 = some none ∧
    ∃ key, RecoverSM2PrivKeyFromLinearRelationship tinyPub ⟨2, 1⟩ ⟨6, 6⟩ 0 0 =
        some (some key) ∧
      key.PublicKey = tinyPub ∧ 0 ≤ key.D ∧ key.D < tinyPub.Curve.Params.N :=
  ⟨(recoverSM2_nil_iff tinyPub ⟨6, 6⟩ ⟨2, 1⟩ 2 3 (by decide)).1.2 (by decide),
   (recoverSM2_nil_iff tinyPub ⟨2, 1⟩ ⟨6, 6⟩ 0 0 (by decide)).2 (by decide) (by decide)⟩

/-- C3 at a failing input: on `small` (prime order `131`), key `3`, nonces `130` and
`2894 = 22 * 130 + 34`. `WeakECDSASign` returns `(2, 76)` and `(121, 78)`; the inverses of
`76` and `78` are `50` and `42`, so `d2 = 121 * 42 - 2 * (22 * 50) = 2882 = 22 * 131` is
congruent to `0` modulo `N` without being the integer `0`, and the function returns a
non-nil key, with `D = 0`, instead of nil. -/
theorem recoverECDSA_degenerate_not_nil :
    WeakECDSASign 130 smallPriv digest12345678 = some (some (2, 76)) ∧
    WeakECDSASign 2894 smallPriv digest12345678 = some (some (121, 78)) ∧
    ModInverse 76 smallPub.Curve.Params.N = some 50 ∧
    ModInverse 78 smallPub.Curve.Params.N = some 42 ∧
    121 * 42 - 2 * 22 * 50 ≡ 0 [ZMOD smallPub.Curve.Params.N] ∧
    RecoverECDSAPrivKeyFromLinearRelationship smallPub digest12345678
        ⟨2, 76⟩ ⟨121, 78⟩ 22 34 ≠ some none ∧
    (RecoverECDSAPrivKeyFromLinearRelationship smallPub digest12345678
        ⟨2, 76⟩ ⟨121, 78⟩ 22 34).map (Option.map PrivateKey.D) = some (some 0) := by
  refine ⟨by decide, by decide, by decide, by decide, by decide, ?_, by decide⟩
  intro hc
  have h2 : (RecoverECDSAPrivKeyFromLinearRelationship smallPub digest12345678
      ⟨2, 76⟩ ⟨121, 78⟩ 22 34).map (Option.map PrivateKey.D) = some (some 0) := by decide
  rw [hc] at h2
  simp at h2

/-- The result of `RecoverSM2RandomRelationship` when `s1 + r1` has the inverse `v`. -/
theorem recoverRelationship_eval (sig1 sig2 : ecSignature) (N v : Int) (hN : N ≠ 0)
    (hv : ModInverse (sig1.S + sig1.R) N = some v) :
    RecoverSM2RandomRelationship sig1 sig2 N =
      some (some (v * (sig2.S + sig2.R) % N,
        (sig2.S - v * (sig2.S + sig2.R) % N * sig1.S) % N)) := by
  unfold RecoverSM2RandomRelationship
  simp only [hv, bind, pure, Option.some_bind, Mod, hN, if_false]

/-- The result of `RecoverSM2RandomRelationship` when `s1 + r1` has no inverse. -/
theorem recoverRelationship_nil (sig1 sig2 : ecSignature) (N : Int)
    (hv : ModInverse (sig1.S + sig1.R) N = none) :
    RecoverSM2RandomRelationship sig1 sig2 N = some none := by
  unfold RecoverSM2RandomRelationship
  simp only [hv, pure]

/-- C5 fails at the scenario of the test: key `3` on `tiny`, `a = b = 0`, nonces `3` and
`0 = 0 * 3 + 0`; the recovered pair is `(4, 2)`, not `(0, 0)`. -/
theorem recoverRelationship_not_original :
    WeakSM2Sign tinySm2 3 tinyPriv digest12345678 = some (some (2, 1)) ∧
    WeakSM2Sign tinySm2 0 tinyPriv digest12345678 = some (some (6, 6)) ∧
    (0 : Int) ≡ 0 * 3 + 0 [ZMOD tinyPub.Curve.Params.N] ∧
    RecoverSM2RandomRelationship ⟨2, 1⟩ ⟨6, 6⟩ tinyPub.Curve.Params.N = some (some (4, 2)) ∧
    RecoverSM2RandomRelationship ⟨2, 1⟩ ⟨6, 6⟩ tinyPub.Curve.Params.N ≠
      some (some (0 % tinyPub.Curve.Params.N, 0 % tinyPub.Curve.Params.N)) := by
  decide

/-- C5, amended. For prime order `N`, `Inverse` inverting modulo `N`, a key `D` with `1 + D`
invertible and signatures `(r1, s1)`, `(r2, s2)` that `WeakSM2Sign` produced under `D` with
nonces `k1` and `k2 ≡ a * k1 + b (mod N)`: `RecoverSM2RandomRelationship` returns the
original pair `(a mod N, b mod N)` exactly when `s1 + r1` is invertible modulo `N` and
`s2 + r2 ≡ a * (s1 + r1) (mod N)`. -/
theorem recoverRelationship_original_iff (sm2P256 : Sm2P256Curve) (pub : PublicKey) (D : Int)
    (h : ByteSlice) (a b k1 k2 r1 s1 r2 s2 : Int)
    (hN : Nat.Prime pub.Curve.Params.N.toNat)
    (hInv : InvertsModulo sm2P256 pub.Curve.Params.N)
    (hD1 : ¬ 1 + D ≡ 0 [ZMOD pub.Curve.Params.N])
    (hk : k2 ≡ a * k1 + b [ZMOD pub.Curve.Params.N])
    (h1 : WeakSM2Sign sm2P256 k1 { PublicKey := pub, D := D } h = some (some (r1, s1)))
    (h2 : WeakSM2Sign sm2P256 k2 { PublicKey := pub, D := D } h = some (some (r2, s2))) :
    RecoverSM2RandomRelationship ⟨r1, s1⟩ ⟨r2, s2⟩ pub.Curve.Params.N =
        some (some (a % pub.Curve.Params.N, b % pub.Curve.Params.N)) ↔
      (¬ s1 + r1 ≡ 0 [ZMOD pub.Curve.Params.N] ∧
        s2 + r2 ≡ a * (s1 + r1) [ZMOD pub.Curve.Params.N]) := by
  have e1 := WeakSM2Sign_equation { PublicKey := pub, D := D } hN hInv hD1 h1
  have e2 := WeakSM2Sign_equation { PublicKey := pub, D := D } hN hInv hD1 h2
  dsimp only at e1 e2
  have hpos := prime_pos hN
  have hN0 : pub.Curve.Params.N ≠ 0 := hpos.ne'
  have hNp : ((pub.Curve.Params.N.toNat : Nat) : Int) = pub.Curve.Params.N :=
    Int.toNat_of_nonneg hpos.le
  have hkey : D * ((s2 + r2) - a * (s1 + r1)) ≡ b - (s2 - a * s1)
      [ZMOD pub.Curve.Params.N] := by
    rw [← hNp] at e1 e2 hk ⊢
    exact sm2_key_equation e1 e2 hk
  by_cases ht : s1 + r1 ≡ 0 [ZMOD pub.Curve.Params.N]
  · have hnone : ModInverse (s1 + r1) pub.Curve.Params.N = none := by
      apply ModInverse_none hpos
      intro hg
      have hco : IsCoprime (s1 + r1) pub.Curve.Params.N := Int.isCoprime_iff_gcd_eq_one.mpr hg
      have hdvd : pub.Curve.Params.N ∣ s1 + r1 := Int.modEq_zero_iff_dvd.mp ht
      have hu : IsUnit pub.Curve.Params.N := hco.symm.isUnit_of_dvd hdvd
      have hp : Prime pub.Curve.Params.N := by
        have h3 : Prime ((pub.Curve.Params.N.toNat : Nat) : Int) := Nat.prime_iff_prime_int.mp hN
        rwa [hNp] at h3
      exact hp.not_unit hu
    rw [recoverRelationship_nil ⟨r1, s1⟩ ⟨r2, s2⟩ _ hnone]
    simp [ht]
  · obtain ⟨v, hv, -, -, hve⟩ := ModInverse_of_prime hN ht
    rw [recoverRelationship_eval ⟨r1, s1⟩ ⟨r2, s2⟩ _ v hN0 hv]
    dsimp only
    simp only [Option.some.injEq, Prod.mk.injEq, ht, not_false_eq_true, true_and]
    have hva : v * (s2 + r2) % pub.Curve.Params.N = a % pub.Curve.Params.N ↔
        s2 + r2 ≡ a * (s1 + r1) [ZMOD pub.Curve.Params.N] := by
      constructor
      · intro hc
        have hc2 : v * (s2 + r2) ≡ a [ZMOD pub.Curve.Params.N] := hc
        have h3 := Int.ModEq.mul_left (s1 + r1) hc2
        have h4 : (s1 + r1) * (v * (s2 + r2)) ≡ s2 + r2 [ZMOD pub.Curve.Params.N] := by
          have := Int.ModEq.mul_right (s2 + r2) hve
          rw [one_mul, mul_assoc] at this
          exact this
        rw [mul_comm a]
        exact h4.symm.trans h3
      · intro hc
        have h3 := Int.ModEq.mul_left v hc
        have h4 : v * (a * (s1 + r1)) ≡ a [ZMOD pub.Curve.Params.N] := by
          have := Int.ModEq.mul_left a hve
          rw [mul_one] at this
          have e : v * (a * (s1 + r1)) = a * ((s1 + r1) * v) := by ring
          rw [e]
          exact this
        exact h3.trans h4
    constructor
    · rintro ⟨ha, -⟩
      exact hva.mp ha
    · intro hc
      have ha := hva.mpr hc
      refine ⟨ha, ?_⟩
      have hb : b ≡ s2 - a * s1 [ZMOD pub.Curve.Params.N] := by
        have h0 : (s2 + r2) - a * (s1 + r1) ≡ 0 [ZMOD pub.Curve.Params.N] := by
          have := Int.ModEq.sub_right (a * (s1 + r1)) hc
          rwa [sub_self] at this
        have h5 := (Int.ModEq.mul_left D h0).symm.trans hkey
        rw [mul_zero] at h5
        have h6 := Int.ModEq.add_right (s2 - a * s1) h5
        rw [zero_add, sub_add_cancel] at h6
        exact h6.symm
      have ha2 : v * (s2 + r2) % pub.Curve.Params.N ≡ a [ZMOD pub.Curve.Params.N] :=
        (Int.mod_modEq _ _).trans ha
      show s2 - v * (s2 + r2) % pub.Curve.Params.N * s1 ≡ b [ZMOD pub.Curve.Params.N]
      exact (Int.ModEq.sub_left _ (Int.ModEq.mul_right _ ha2)).trans hb.symm

/-- C5, amended, at a concrete input: key `3` on `tiny`, `a = 3`, `b = 1`, nonces `1` and
`4 = 3 * 1 + 1`, where `s2 + r2 = 5 ≡ 3 * 4 = a * (s1 + r1)`. -/
theorem recoverRelationship_original_iff_witness :
    RecoverSM2RandomRelationship ⟨1, 3⟩ ⟨2, 3⟩ tinyPub.Curve.Params.N =
      some (some (3 % tinyPub.Curve.Params.N, 1 % tinyPub.Curve.Params.N)) :=
  (recoverRelationship_original_iff tinySm2 tinyPub 3 digest12345678 3 1 1 4 1 3 2 3
    tiny_prime tinySm2_inverts (by decide) (by decide) (by decide) (by decide)).mpr
    ⟨by decide, by decide⟩

/-- C6 fails at the scenario of the test: for the signatures `(2, 1)` and `(6, 6)` of key `3`
on `tiny` (nonces `3` and `0`), `s1 + r1 = 3` is invertible, the recovered relation is
`(4, 2)`, and the key recovery with that pair returns nil. -/
theorem recoverSM2_with_recovered_pair_nil :
    WeakSM2Sign tinySm2 3 tinyPriv digest12345678 = some (some (2, 1)) ∧
    WeakSM2Sign tinySm2 0 tinyPriv digest12345678 = some (some (6, 6)) ∧
    ModInverse (1 + 2) tinyPub.Curve.Params.N = some 5 ∧
    RecoverSM2RandomRelationship ⟨2, 1⟩ ⟨6, 6⟩ tinyPub.Curve.Params.N = some (some (4, 2)) ∧
    RecoverSM2PrivKeyFromLinearRelationship tinyPub ⟨2, 1⟩ ⟨6, 6⟩ 4 2 = some none := by
  refine ⟨by decide, by decide, by decide, by decide, ?_⟩
  exact recoverSM2_nil_of_modEq tinyPub ⟨2, 1⟩ ⟨6, 6⟩ 4 2 (by decide) (by decide)

/-- C6, amended. For prime order `N` and every two signatures (in particular two that
`WeakSM2Sign` produced under one key) with `s1 + r1` invertible modulo `N`,
`RecoverSM2RandomRelationship` returns a pair `(ra, rb)`, and
`RecoverSM2PrivKeyFromLinearRelationship` called with that pair returns nil: the recovered
relation makes `dt = (s2 + r2) - ra * (s1 + r1)` congruent to `0`, so no key is recovered. -/
theorem recoverSM2_with_recovered_pair (pub : PublicKey) (sig1 sig2 : ecSignature)
    (hN : Nat.Prime pub.Curve.Params.N.toNat)
    (ht : ¬ sig1.S + sig1.R ≡ 0 [ZMOD pub.Curve.Params.N]) :
    ∃ ra rb, RecoverSM2RandomRelationship sig1 sig2 pub.Curve.Params.N = some (some (ra, rb)) ∧
      RecoverSM2PrivKeyFromLinearRelationship pub sig1 sig2 ra rb = some none := by
  have hpos := prime_pos hN
  have hN0 : pub.Curve.Params.N ≠ 0 := hpos.ne'
  obtain ⟨v, hv, -, -, hve⟩ := ModInverse_of_prime hN ht
  refine ⟨_, _, recoverRelationship_eval sig1 sig2 _ v hN0 hv, ?_⟩
  apply recoverSM2_nil_of_modEq pub sig1 sig2 _ _ hN0
  have h1 : v * (sig2.S + sig2.R) % pub.Curve.Params.N * (sig1.S + sig1.R) ≡
      sig2.S + sig2.R [ZMOD pub.Curve.Params.N] := by
    have h2 : v * (sig2.S + sig2.R) % pub.Curve.Params.N * (sig1.S + sig1.R) ≡
        v * (sig2.S + sig2.R) * (sig1.S + sig1.R) [ZMOD pub.Curve.Params.N] :=
      Int.ModEq.mul_right _ (Int.mod_modEq _ _)
    have h3 := Int.ModEq.mul_right (sig2.S + sig2.R) hve
    rw [one_mul] at h3
    have e : v * (sig2.S + sig2.R) * (sig1.S + sig1.R) =
        (sig1.S + sig1.R) * v * (sig2.S + sig2.R) := by ring
    rw [e] at h2
    exact h2.trans h3
  have h4 := Int.ModEq.sub_left (sig2.S + sig2.R) h1
  rw [sub_self] at h4
  exact h4

/-- C6, amended, at a concrete input: the signatures `(2, 1)` and `(6, 6)` on `tiny`. -/
theorem recoverSM2_with_recovered_pair_witness :
    ∃ ra rb, RecoverSM2RandomRelationship ⟨2, 1⟩ ⟨6, 6⟩ tinyPub.Curve.Params.N =
        some (some (ra, rb)) ∧
      RecoverSM2PrivKeyFromLinearRelationship tinyPub ⟨2, 1⟩ ⟨6, 6⟩ ra rb = some none :=
  recoverSM2_with_recovered_pair tinyPub ⟨2, 1⟩ ⟨6, 6⟩ tiny_prime (by decide)

/-- C7. Nonce recovery inverts SM2 signing: for prime order `N`, `Inverse` inverting modulo
`N`, a key `D` with `1 + D` invertible, a digest and a nonce `1 ≤ k < N`, if `WeakSM2Sign`
returns the non-nil `(r, s)` then `RecoverSM2RandomFromPrivateKey` returns
`(s * (1 + D) + r * D) mod N`, and that is `k`. -/
theorem recoverRandom_correct (sm2P256 : Sm2P256Curve) (priv : PrivateKey) (h : ByteSlice)
    (k r s : Int)
    (hN : Nat.Prime priv.PublicKey.Curve.Params.N.toNat)
    (hInv : InvertsModulo sm2P256 priv.PublicKey.Curve.Params.N)
    (hD1 : ¬ 1 + priv.D ≡ 0 [ZMOD priv.PublicKey.Curve.Params.N])
    (hk1 : 1 ≤ k) (hkN : k < priv.PublicKey.Curve.Params.N)
    (hs : WeakSM2Sign sm2P256 k priv h = some (some (r, s))) :
    RecoverSM2RandomFromPrivateKey priv ⟨r, s⟩ =
        some ((s * (1 + priv.D) + r * priv.D) % priv.PublicKey.Curve.Params.N) ∧
    (s * (1 + priv.D) + r * priv.D) % priv.PublicKey.Curve.Params.N = k := by
  have e1 := WeakSM2Sign_equation priv hN hInv hD1 hs
  have hpos := prime_pos hN
  have hN0 : priv.PublicKey.Curve.Params.N ≠ 0 := hpos.ne'
  constructor
  · unfold RecoverSM2RandomFromPrivateKey
    simp only [Mod, hN0, if_false]
  · refine eq_of_modEq_of_range ?_ (Int.emod_nonneg _ hN0) (Int.emod_lt_of_pos _ hpos)
      (by omega) hkN
    refine (Int.mod_modEq _ _).trans ?_
    have e : s * (1 + priv.D) + r * priv.D = s + priv.D * (s + r) := by ring
    rw [e]
    exact e1.symm

/-- C7 at a concrete input: key `3` on `tiny`, nonce `3`, signature `(2, 1)`. -/
theorem recoverRandom_correct_witness :
    WeakSM2Sign tinySm2 3 tinyPriv digest12345678 = some (some (2, 1)) ∧
    RecoverSM2RandomFromPrivateKey tinyPriv ⟨2, 1⟩ = some 3 :=
  ⟨by decide,
    ((recoverRandom_correct tinySm2 tinyPriv digest12345678 3 2 1 tiny_prime tinySm2_inverts
      (by decide) (by decide) (by decide) (by decide)).1).trans (by decide)⟩

/-! ## Byte encodings -/

/-- Value of a big-endian byte string as a natural number. -/
theorem foldl_bytes (bs : List Byte) (v : Nat) :
    bs.foldl (fun acc b => acc * 256 + b.val) v =
      v * 256 ^ bs.length + bs.foldl (fun acc b => acc * 256 + b.val) 0 := by
  induction bs generalizing v with
  | nil => simp
  | cons b bs ih =>
    simp only [List.foldl_cons, List.length_cons]
    rw [ih (v * 256 + b.val), ih (0 * 256 + b.val)]
    ring

theorem natBytesAux_value : ∀ (fuel n : Nat) (acc : List Byte), n ≤ fuel →
    (natBytesAux fuel n acc).foldl (fun acc b => acc * 256 + b.val) 0 =
      n * 256 ^ acc.length + acc.foldl (fun acc b => acc * 256 + b.val) 0 := by
  intro fuel
  induction fuel with
  | zero =>
    intro n acc h
    have : n = 0 := by omega
    subst this
    simp [natBytesAux]
  | succ f ih =>
    intro n acc h
    unfold natBytesAux
    by_cases hn : n = 0
    · subst hn
      simp
    · simp only [hn, if_false]
      have hle : n / 256 ≤ f := by
        have := Nat.div_lt_self (Nat.pos_of_ne_zero hn) (by norm_num : 1 < 256)
        omega
      rw [ih (n / 256) _ hle]
      simp only [List.length_cons, List.foldl_cons]
      rw [foldl_bytes acc (0 * 256 + _)]
      have hv : (Fin.ofNat (n % 256) : Byte).val = n % 256 := by
        show n % 256 % 256 = n % 256
        omega
      rw [hv]
      have hdm := Nat.div_add_mod n 256
      have e : n / 256 * 256 ^ (acc.length + 1) + ((0 * 256 + n % 256) * 256 ^ acc.length +
          acc.foldl (fun acc b => acc * 256 + b.val) 0) =
          (256 * (n / 256) + n % 256) * 256 ^ acc.length +
            acc.foldl (fun acc b => acc * 256 + b.val) 0 := by ring
      rw [e, hdm]

theorem natBytesAux_length : ∀ (fuel n k : Nat) (acc : List Byte), n ≤ fuel → n < 256 ^ k →
    (natBytesAux fuel n acc).length ≤ k + acc.length := by
  intro fuel
  induction fuel with
  | zero =>
    intro n k acc _ _
    simp [natBytesAux]
  | succ f ih =>
    intro n k acc h hk
    unfold natBytesAux
    by_cases hn : n = 0
    · simp [hn]
    · simp only [hn, if_false]
      have hle : n / 256 ≤ f := by
        have := Nat.div_lt_self (Nat.pos_of_ne_zero hn) (by norm_num : 1 < 256)
        omega
      cases k with
      | zero => simp at hk; omega
      | succ k =>
        have hk2 : n / 256 < 256 ^ k := by
          rw [Nat.div_lt_iff_lt_mul (by norm_num)]
          rw [pow_succ] at hk
          exact hk
        have := ih (n / 256) k (Fin.ofNat (n % 256) :: acc) hle hk2
        simp only [List.length_cons] at this
        omega

/-- Decoding the minimal encoding of a nonnegative integer gives it back. -/
theorem SetBytes_Bytes {v : Int} (hv : 0 ≤ v) : SetBytes (Bytes v) = v := by
  unfold SetBytes Bytes
  rw [natBytesAux_value _ _ _ le_rfl]
  simp
  omega

/-- The minimal encoding of a value below `256 ^ k` has at most `k` bytes. -/
theorem Bytes_length {v : Int} {k : Nat} (hv : v.natAbs < 256 ^ k) : (Bytes v).length ≤ k := by
  unfold Bytes
  have := natBytesAux_length _ _ k [] le_rfl hv
  simpa using this

theorem bitLenAux_lt : ∀ (fuel n : Nat), n ≤ fuel → n < 2 ^ bitLenAux fuel n := by
  intro fuel
  induction fuel with
  | zero => intro n h; simp [bitLenAux]; omega
  | succ f ih =>
    intro n h
    unfold bitLenAux
    by_cases hn : n = 0
    · simp [hn]
    · simp only [hn, if_false]
      have hle : n / 2 ≤ f := by omega
      have := ih (n / 2) hle
      rw [pow_succ]
      omega

/-- An integer is below `2` to the power of its bit length. -/
theorem lt_two_pow_BitLen (x : Int) : x.natAbs < 2 ^ BitLen x :=
  bitLenAux_lt _ _ le_rfl

/-- `hashToInt` gives back a scalar below `N` from its minimal encoding when the bit
length of `N` is a whole number of bytes. -/
theorem hashToInt_Bytes (c : Curve) {v : Int} (hbits : BitLen c.Params.N % 8 = 0)
    (hv0 : 0 ≤ v) (hvN : v < c.Params.N) :
    hashToInt { data := Bytes v, spare := [] } c = v := by
  obtain ⟨m, hm⟩ : ∃ m, BitLen c.Params.N = 8 * m := ⟨BitLen c.Params.N / 8, by omega⟩
  have hlt := lt_two_pow_BitLen c.Params.N
  rw [hm, pow_mul] at hlt
  have hvlt : v.natAbs < 256 ^ m := by
    have : v.natAbs < c.Params.N.natAbs := by omega
    norm_num at hlt
    omega
  have hlen := Bytes_length hvlt
  unfold hashToInt
  simp only [hm]
  have e1 : (8 * m + 7) / 8 = m := by omega
  rw [e1]
  have e2 : ¬ (Bytes v).length > m := by omega
  simp only [e2, if_false]
  have e3 : ¬ ((Bytes v).length : Int) * 8 - ((8 * m : Nat) : Int) > 0 := by
    push_cast
    omega
  rw [if_neg e3]
  exact SetBytes_Bytes hv0

/-! ## Forgery without the private key -/

/-- The result of `ECDSAGenerateSignatureAttack` when `b` is not `0` and has the inverse
`bi`. -/
theorem ecdsaForgery_eval (pub : PublicKey) (a b bi : Int) (hN : pub.Curve.Params.N ≠ 0)
    (hb : b ≠ 0) (hbi : ModInverse b pub.Curve.Params.N = some bi) :
    ECDSAGenerateSignatureAttack pub a b =
      some (some
        ((pub.Curve.Add (pub.Curve.ScalarBaseMult (Bytes a)).1
              (pub.Curve.ScalarBaseMult (Bytes a)).2
              (pub.Curve.ScalarMult pub.X pub.Y (Bytes b)).1
              (pub.Curve.ScalarMult pub.X pub.Y (Bytes b)).2).1 % pub.Curve.Params.N,
         (pub.Curve.Add (pub.Curve.ScalarBaseMult (Bytes a)).1
              (pub.Curve.ScalarBaseMult (Bytes a)).2
              (pub.Curve.ScalarMult pub.X pub.Y (Bytes b)).1
              (pub.Curve.ScalarMult pub.X pub.Y (Bytes b)).2).1 % pub.Curve.Params.N * bi
            % pub.Curve.Params.N,
         { data := Bytes (a *
              ((pub.Curve.Add (pub.Curve.ScalarBaseMult (Bytes a)).1
                (pub.Curve.ScalarBaseMult (Bytes a)).2
                (pub.Curve.ScalarMult pub.X pub.Y (Bytes b)).1
                (pub.Curve.ScalarMult pub.X pub.Y (Bytes b)).2).1 % pub.Curve.Params.N * bi
              % pub.Curve.Params.N) % pub.Curve.Params.N),
           spare := [] })) := by
  unfold ECDSAGenerateSignatureAttack
  simp only [bind, pure, Option.some_bind, Mod, hN, hb, hbi, if_false]

/-- Unfolding of `ecdsaVerify`. -/
theorem ecdsaVerify_iff (pub : PublicKey) (e r s : Int) :
    ecdsaVerify pub e r s = true ↔
      1 ≤ r ∧ r ≤ pub.Curve.Params.N - 1 ∧ 1 ≤ s ∧ s ≤ pub.Curve.Params.N - 1 ∧
      ∃ w, ModInverse s pub.Curve.Params.N = some w ∧
        (pub.Curve.Add (pub.Curve.ScalarBaseMult (Bytes (e * w % pub.Curve.Params.N))).1
          (pub.Curve.ScalarBaseMult (Bytes (e * w % pub.Curve.Params.N))).2
          (pub.Curve.ScalarMult pub.X pub.Y (Bytes (r * w % pub.Curve.Params.N))).1
          (pub.Curve.ScalarMult pub.X pub.Y (Bytes (r * w % pub.Curve.Params.N))).2).1
          % pub.Curve.Params.N = r := by
  unfold ecdsaVerify
  by_cases hr : r < 1 ∨ pub.Curve.Params.N - 1 < r ∨ s < 1 ∨ pub.Curve.Params.N - 1 < s
  · simp only [hr, if_true]
    constructor
    · intro h; cases h
    · rintro ⟨h1, h2, h3, h4, -⟩
      omega
  · simp only [hr, if_false]
    have hr2 : 1 ≤ r ∧ r ≤ pub.Curve.Params.N - 1 ∧ 1 ≤ s ∧ s ≤ pub.Curve.Params.N - 1 := by
      omega
    cases hw : ModInverse s pub.Curve.Params.N with
    | none => simp
    | some w => simp [hr2.1, hr2.2.1, hr2.2.2.1, hr2.2.2.2]

/-- C8 fails in two ways. Where `a·G + b·K` is the point at infinity: on `small` (prime
order `131`, of exactly 8 bits) with `K = 3·G`, `a = 128`, `b = 1`, the attack returns
`r = 0`, `s = 0` and the empty digest, which does not verify. And where the verifier does
not read the returned digest back as `a·s mod N`: on `tiny` (prime order `7`, of 3 bits)
with `K = 3·G`, `a = 1`, `b = 3`, the attack returns `r = 3`, `s = 1` and the digest `[1]`,
which `hashToInt` reads as `0`, and `(3, 1)` does not verify for it. -/
theorem ecdsaForgery_invalid :
    (Nat.Prime smallPub.Curve.Params.N.toNat ∧
      smallPub.Curve.ScalarBaseMult (Bytes 3) = (smallPub.X, smallPub.Y) ∧
      (0 : Int) ≤ 128 ∧ 128 < smallPub.Curve.Params.N ∧
      (0 : Int) < 1 ∧ 1 < smallPub.Curve.Params.N ∧
      ECDSAGenerateSignatureAttack smallPub 128 1 =
        some (some (0, 0, { data := [], spare := [] })) ∧
      ecdsaVerify smallPub (hashToInt { data := [], spare := [] } smallPub.Curve) 0 0 = false) ∧
    (Nat.Prime tinyPub.Curve.Params.N.toNat ∧
      tinyPub.Curve.ScalarBaseMult (Bytes 3) = (tinyPub.X, tinyPub.Y) ∧
      (0 : Int) ≤ 1 ∧ 1 < tinyPub.Curve.Params.N ∧
      (0 : Int) < 3 ∧ 3 < tinyPub.Curve.Params.N ∧
      ECDSAGenerateSignatureAttack tinyPub 1 3 =
        some (some (3, 1, { data := [1], spare := [] })) ∧
      hashToInt { data := [1], spare := [] } tinyPub.Curve = 0 ∧
      ecdsaVerify tinyPub (hashToInt { data := [1], spare := [] } tinyPub.Curve) 3 1 = false) :=
  ⟨⟨small_prime, by decide, by decide, by decide, by decide, by decide, by decide, by decide⟩,
   ⟨tiny_prime, by decide, by decide, by decide, by decide, by decide, by decide, by decide,
    by decide⟩⟩

/-- C8, amended. For every public key `K` on a curve of prime order `N` and all scalars
`a`, `b` in `[0, N)` with `b ≠ 0`: `ECDSAGenerateSignatureAttack` returns `(r, s, e)` with
`r = x(a·G + b·K) mod N`, and `(r, s)` passes ECDSA verification for the digest scalar
`hashToInt e` under `K` exactly when `r ≠ 0` and
`x((hashToInt e · s⁻¹ mod N)·G + b·K) mod N = r`. In particular it passes whenever `r ≠ 0`
and `hashToInt e ≡ a·s (mod N)`, and `hashToInt e = a·s mod N` for every order whose bit
length is a whole number of bytes. -/
theorem ecdsaForgery_verifies (pub : PublicKey) (a b : Int)
    (hN : Nat.Prime pub.Curve.Params.N.toNat)
    (ha0 : 0 ≤ a) (haN : a < pub.Curve.Params.N)
    (hb0 : 0 < b) (hbN : b < pub.Curve.Params.N) :
    ∃ r s e, ECDSAGenerateSignatureAttack pub a b = some (some (r, s, e)) ∧
      r = (pub.Curve.Add (pub.Curve.ScalarBaseMult (Bytes a)).1
              (pub.Curve.ScalarBaseMult (Bytes a)).2
              (pub.Curve.ScalarMult pub.X pub.Y (Bytes b)).1
              (pub.Curve.ScalarMult pub.X pub.Y (Bytes b)).2).1 % pub.Curve.Params.N ∧
      (ecdsaVerify pub (hashToInt e pub.Curve) r s = true ↔
        r ≠ 0 ∧ ∃ w, s * w ≡ 1 [ZMOD pub.Curve.Params.N] ∧
          (pub.Curve.Add
            (pub.Curve.ScalarBaseMult
              (Bytes (hashToInt e pub.Curve * w % pub.Curve.Params.N))).1
            (pub.Curve.ScalarBaseMult
              (Bytes (hashToInt e pub.Curve * w % pub.Curve.Params.N))).2
            (pub.Curve.ScalarMult pub.X pub.Y (Bytes b)).1
            (pub.Curve.ScalarMult pub.X pub.Y (Bytes b)).2).1 % pub.Curve.Params.N = r) ∧
      (r ≠ 0 → hashToInt e pub.Curve ≡ a * s [ZMOD pub.Curve.Params.N] →
        ecdsaVerify pub (hashToInt e pub.Curve) r s = true) ∧
      (BitLen pub.Curve.Params.N % 8 = 0 →
        hashToInt e pub.Curve = a * s % pub.Curve.Params.N) := by
  have hpos := prime_pos hN
  have hN0 : pub.Curve.Params.N ≠ 0 := hpos.ne'
  have hbne : ¬ b ≡ 0 [ZMOD pub.Curve.Params.N] := by
    intro hc
    have := Int.emod_eq_of_lt hb0.le hbN
    have h0 : b % pub.Curve.Params.N = 0 := by simpa [Int.ModEq] using hc
    omega
  obtain ⟨bi, hbi, -, -, hbie⟩ := ModInverse_of_prime hN hbne
  refine ⟨_, _, _, ecdsaForgery_eval pub a b bi hN0 hb0.ne' hbi, rfl, ?_⟩
  generalize hX : (pub.Curve.Add (pub.Curve.ScalarBaseMult (Bytes a)).1
              (pub.Curve.ScalarBaseMult (Bytes a)).2
              (pub.Curve.ScalarMult pub.X pub.Y (Bytes b)).1
              (pub.Curve.ScalarMult pub.X pub.Y (Bytes b)).2).1 = X
  have hR0 : 0 ≤ X % pub.Curve.Params.N := Int.emod_nonneg _ hN0
  have hRN : X % pub.Curve.Params.N < pub.Curve.Params.N := Int.emod_lt_of_pos _ hpos
  generalize hR : X % pub.Curve.Params.N = R at *
  have hS0 : 0 ≤ R * bi % pub.Curve.Params.N := Int.emod_nonneg _ hN0
  have hSN : R * bi % pub.Curve.Params.N < pub.Curve.Params.N := Int.emod_lt_of_pos _ hpos
  -- `s * b ≡ r`
  have hsb : R * bi % pub.Curve.Params.N * b ≡ R [ZMOD pub.Curve.Params.N] := by
    have h1 : R * bi % pub.Curve.Params.N * b ≡ R * bi * b [ZMOD pub.Curve.Params.N] :=
      Int.ModEq.mul_right _ (Int.mod_modEq _ _)
    have h2 := Int.ModEq.mul_left R hbie
    rw [mul_one] at h2
    have e : R * bi * b = R * (b * bi) := by ring
    rw [e] at h1
    exact h1.trans h2
  generalize hS : R * bi % pub.Curve.Params.N = S at *
  generalize hH : hashToInt { data := Bytes (a * S % pub.Curve.Params.N), spare := [] }
    pub.Curve = H
  -- for `r ≠ 0`: `s ≠ 0`, and the second scalar of the verification is `b`
  have key : R ≠ 0 → S ≠ 0 ∧ ∀ w, S * w ≡ 1 [ZMOD pub.Curve.Params.N] →
      R * w % pub.Curve.Params.N = b := by
    intro hr
    have hrne : ¬ R ≡ 0 [ZMOD pub.Curve.Params.N] := by
      intro hc
      apply hr
      exact eq_of_modEq_of_range hc hR0 hRN le_rfl hpos
    refine ⟨?_, ?_⟩
    · intro hc
      rw [hc, zero_mul] at hsb
      exact hrne hsb.symm
    · intro w hwe
      refine eq_of_modEq_of_range ?_ (Int.emod_nonneg _ hN0) (Int.emod_lt_of_pos _ hpos)
        hb0.le hbN
      refine (Int.mod_modEq _ _).trans ?_
      have h1 : R * w ≡ S * b * w [ZMOD pub.Curve.Params.N] := Int.ModEq.mul_right _ hsb.symm
      have h2 := Int.ModEq.mul_left b hwe
      rw [mul_one] at h2
      have e : S * b * w = b * (S * w) := by ring
      rw [e] at h1
      exact h1.trans h2
  have hiff : ecdsaVerify pub H R S = true ↔
      R ≠ 0 ∧ ∃ w, S * w ≡ 1 [ZMOD pub.Curve.Params.N] ∧
        (pub.Curve.Add
          (pub.Curve.ScalarBaseMult (Bytes (H * w % pub.Curve.Params.N))).1
          (pub.Curve.ScalarBaseMult (Bytes (H * w % pub.Curve.Params.N))).2
          (pub.Curve.ScalarMult pub.X pub.Y (Bytes b)).1
          (pub.Curve.ScalarMult pub.X pub.Y (Bytes b)).2).1 % pub.Curve.Params.N = R := by
    rw [ecdsaVerify_iff]
    constructor
    · rintro ⟨h1, -, -, -, w, hw, heq⟩
      have hr : R ≠ 0 := by omega
      have hwe := (ModInverse_spec hpos hw).2.2
      rw [(key hr).2 w hwe] at heq
      exact ⟨hr, w, hwe, heq⟩
    · rintro ⟨hr, w', hwe', heq'⟩
      obtain ⟨hsne, hb'⟩ := key hr
      have hsne' : ¬ S ≡ 0 [ZMOD pub.Curve.Params.N] := by
        intro hc
        exact hsne (eq_of_modEq_of_range hc hS0 hSN le_rfl hpos)
      obtain ⟨w, hw, -, -, hwe⟩ := ModInverse_of_prime hN hsne'
      refine ⟨by omega, by omega, by omega, by omega, w, hw, ?_⟩
      have hww : H * w % pub.Curve.Params.N = H * w' % pub.Curve.Params.N :=
        Int.ModEq.mul_left H (inverse_unique hwe hwe')
      rw [hb' w hwe, hww]
      exact heq'
  refine ⟨hiff, ?_, ?_⟩
  · intro hr hH2
    obtain ⟨hsne, -⟩ := key hr
    have hsne' : ¬ S ≡ 0 [ZMOD pub.Curve.Params.N] := by
      intro hc
      exact hsne (eq_of_modEq_of_range hc hS0 hSN le_rfl hpos)
    obtain ⟨w, -, -, -, hwe⟩ := ModInverse_of_prime hN hsne'
    refine hiff.mpr ⟨hr, w, hwe, ?_⟩
    have hu1 : H * w % pub.Curve.Params.N = a := by
      refine eq_of_modEq_of_range ?_ (Int.emod_nonneg _ hN0) (Int.emod_lt_of_pos _ hpos)
        ha0 haN
      refine (Int.mod_modEq _ _).trans ?_
      have h1 : H * w ≡ a * S * w [ZMOD pub.Curve.Params.N] := Int.ModEq.mul_right _ hH2
      have h2 := Int.ModEq.mul_left a hwe
      rw [mul_one, ← mul_assoc] at h2
      exact h1.trans h2
    rw [hu1, hX, hR]
  · intro hbits
    rw [← hH]
    exact hashToInt_Bytes pub.Curve hbits (Int.emod_nonneg _ hN0) (Int.emod_lt_of_pos _ hpos)

/-- C8, amended, at a concrete input: `K = 3·G` on `small`, whose order has 8 bits, with
`a = 5`, `b = 9`; the attack returns `(105, 99)` and the digest `[102]`, and the signature
verifies. -/
theorem ecdsaForgery_verifies_witness :
    ECDSAGenerateSignatureAttack smallPub 5 9 =
      some (some (105, 99, { data := [102], spare := [] })) ∧
    ecdsaVerify smallPub (hashToInt { data := [102], spare := [] } smallPub.Curve) 105 99 =
      true := by
  have hc : ECDSAGenerateSignatureAttack smallPub 5 9 =
      some (some (105, 99, { data := [102], spare := [] })) := by decide
  obtain ⟨r, s, e, h1, -, -, hsuff, -⟩ :=
    ecdsaForgery_verifies smallPub 5 9 small_prime (by decide) (by decide) (by decide)
      (by decide)
  rw [hc] at h1
  simp only [Option.some.injEq, Prod.mk.injEq] at h1
  obtain ⟨rfl, rfl, rfl⟩ := h1
  exact ⟨hc, hsuff (by decide) (by decide)⟩

/-- C9 fails for `b = 0`: on `tiny` with `K = 3·G`, `a = 1`, `b = 0` (so `a ≠ 0` and
`a ≠ b`), the attack returns `r = 6`, `s = 1`, for which `t = (r + s) mod 7 = 0`, and the
signature does not verify against the returned digest. -/
theorem sm2Forgery_degenerate :
    Nat.Prime tinyPub.Curve.Params.N.toNat ∧
    tinyPub.Curve.ScalarBaseMult (Bytes 3) = (tinyPub.X, tinyPub.Y) ∧
    (1 : Int) < tinyPub.Curve.Params.N ∧ (1 : Int) ≠ 0 ∧
    SM2GenerateSignatureAttack tinyPub 1 0 = some (6, 1, { data := [4], spare := [] }) ∧
    (6 + 1) % tinyPub.Curve.Params.N = 0 ∧
    sm2Verify tinyPub (SetBytes [4]) 6 1 = false :=
  ⟨tiny_prime, by decide, by decide, by decide, by decide, by decide, by decide⟩

/-- C9, amended. For every public key `K` on a curve of order `N > 0` (in particular a prime
`N`) and all scalars `a`, `b` in `[0, N)` with `a ≠ 0`, `b ≠ 0` and `a ≠ b`:
`SM2GenerateSignatureAttack` returns `r = (b - a) mod N`, `s = a mod N` and `e` the bytes of
`(b - x - a) mod N` with `x = x(a·G + b·K) mod N`, and `(r, s)` passes SM2 verification for
the digest `e` under `K`. -/
theorem sm2Forgery_verifies (pub : PublicKey) (a b : Int)
    (hN : 0 < pub.Curve.Params.N)
    (ha0 : 0 < a) (haN : a < pub.Curve.Params.N)
    (hb0 : 0 < b) (hbN : b < pub.Curve.Params.N) (hab : a ≠ b) :
    ∃ r s e, SM2GenerateSignatureAttack pub a b = some (r, s, e) ∧
      r = (b - a) % pub.Curve.Params.N ∧ s = a % pub.Curve.Params.N ∧
      e.data = Bytes ((b -
        (pub.Curve.Add (pub.Curve.ScalarBaseMult (Bytes a)).1
              (pub.Curve.ScalarBaseMult (Bytes a)).2
              (pub.Curve.ScalarMult pub.X pub.Y (Bytes b)).1
              (pub.Curve.ScalarMult pub.X pub.Y (Bytes b)).2).1 % pub.Curve.Params.N - a)
          % pub.Curve.Params.N) ∧
      sm2Verify pub (SetBytes e.data) r s = true := by
  have hN0 : pub.Curve.Params.N ≠ 0 := hN.ne'
  refine ⟨(b - a) % pub.Curve.Params.N, a % pub.Curve.Params.N,
    { data := Bytes ((b -
        (pub.Curve.Add (pub.Curve.ScalarBaseMult (Bytes a)).1
              (pub.Curve.ScalarBaseMult (Bytes a)).2
              (pub.Curve.ScalarMult pub.X pub.Y (Bytes b)).1
              (pub.Curve.ScalarMult pub.X pub.Y (Bytes b)).2).1 % pub.Curve.Params.N - a)
          % pub.Curve.Params.N), spare := [] }, ?_, rfl, rfl, rfl, ?_⟩
  · unfold SM2GenerateSignatureAttack
    simp only [bind, pure, Option.some_bind, Mod, hN0, if_false]
  · unfold sm2Verify
    dsimp only
    have hs : a % pub.Curve.Params.N = a := Int.emod_eq_of_lt ha0.le haN
    have hr0 : 0 ≤ (b - a) % pub.Curve.Params.N := Int.emod_nonneg _ hN0
    have hrN : (b - a) % pub.Curve.Params.N < pub.Curve.Params.N := Int.emod_lt_of_pos _ hN
    have ht : ((b - a) % pub.Curve.Params.N + a) % pub.Curve.Params.N = b := by
      refine eq_of_modEq_of_range ?_ (Int.emod_nonneg _ hN0) (Int.emod_lt_of_pos _ hN)
        hb0.le hbN
      refine (Int.mod_modEq _ _).trans ?_
      have := Int.ModEq.add_right a (Int.mod_modEq (b - a) pub.Curve.Params.N)
      rwa [sub_add_cancel] at this
    rw [hs, ht]
    generalize (pub.Curve.Add (pub.Curve.ScalarBaseMult (Bytes a)).1
              (pub.Curve.ScalarBaseMult (Bytes a)).2
              (pub.Curve.ScalarMult pub.X pub.Y (Bytes b)).1
              (pub.Curve.ScalarMult pub.X pub.Y (Bytes b)).2).1 = X
    have hrne : (b - a) % pub.Curve.Params.N ≠ 0 := by
      intro hc
      apply hab
      have h1 : b - a ≡ 0 [ZMOD pub.Curve.Params.N] := by simpa [Int.ModEq] using hc
      have h2 := Int.ModEq.add_right a h1
      rw [sub_add_cancel, zero_add] at h2
      exact (eq_of_modEq_of_range h2 hb0.le hbN ha0.le haN).symm
    have he : SetBytes (Bytes ((b - X % pub.Curve.Params.N - a) % pub.Curve.Params.N)) =
        (b - X % pub.Curve.Params.N - a) % pub.Curve.Params.N :=
      SetBytes_Bytes (Int.emod_nonneg _ hN0)
    have hfin : ((b - X % pub.Curve.Params.N - a) % pub.Curve.Params.N + X)
        % pub.Curve.Params.N = (b - a) % pub.Curve.Params.N := by
      have h1 : (b - X % pub.Curve.Params.N - a) % pub.Curve.Params.N + X ≡
          (b - X % pub.Curve.Params.N - a) + X [ZMOD pub.Curve.Params.N] :=
        Int.ModEq.add_right _ (Int.mod_modEq _ _)
      have h2 : (b - X % pub.Curve.Params.N - a) + X ≡ (b - X - a) + X
          [ZMOD pub.Curve.Params.N] :=
        Int.ModEq.add_right _
          (Int.ModEq.sub_right _ (Int.ModEq.sub_left _ (Int.mod_modEq _ _)))
      have e : (b - X - a) + X = b - a := by ring
      rw [e] at h2
      exact h1.trans h2
    have hrange : ¬ ((b - a) % pub.Curve.Params.N < 1 ∨
        pub.Curve.Params.N - 1 < (b - a) % pub.Curve.Params.N ∨
        a < 1 ∨ pub.Curve.Params.N - 1 < a) := by
      omega
    have hb : ¬ b = 0 := hb0.ne'
    simp only [hrange, if_false, hb, he, hfin, decide_True]

/-- C9, amended, at a concrete input: `K = 3·G` on `tiny`, `a = 1`, `b = 3`, where
`a·G + b·K = 3·G = (10, 1)`. -/
theorem sm2Forgery_verifies_witness :
    SM2GenerateSignatureAttack tinyPub 1 3 = some (2, 1, { data := [6], spare := [] }) ∧
    ∃ r s e, SM2GenerateSignatureAttack tinyPub 1 3 = some (r, s, e) ∧
      r = (3 - 1) % tinyPub.Curve.Params.N ∧ s = 1 % tinyPub.Curve.Params.N ∧
      e.data = Bytes ((3 -
        (tinyPub.Curve.Add (tinyPub.Curve.ScalarBaseMult (Bytes 1)).1
              (tinyPub.Curve.ScalarBaseMult (Bytes 1)).2
              (tinyPub.Curve.ScalarMult tinyPub.X tinyPub.Y (Bytes 3)).1
              (tinyPub.Curve.ScalarMult tinyPub.X tinyPub.Y (Bytes 3)).2).1
            % tinyPub.Curve.Params.N - 1)
          % tinyPub.Curve.Params.N) ∧
      sm2Verify tinyPub (SetBytes e.data) r s = true :=
  ⟨by decide,
    sm2Forgery_verifies tinyPub 1 3 (by decide) (by decide) (by decide) (by decide)
      (by decide) (by decide)⟩

/-! ## Curve values that implement a group -/

set_option maxRecDepth 100000 in
theorem bitsVal_byteBits : ∀ b : Byte, bitsVal (byteBits b) 0 = b.val := by
  decide

theorem bitsVal_linear (bits : List Bool) (v : Nat) :
    bitsVal bits v = v * 2 ^ bits.length + bitsVal bits 0 := by
  unfold bitsVal
  induction bits generalizing v with
  | nil => simp
  | cons b bits ih =>
    simp only [List.foldl_cons, List.length_cons]
    rw [ih (2 * v + _), ih (2 * 0 + _)]
    ring

theorem bitsVal_flatMap (k : List Byte) (v : Nat) :
    bitsVal (k.flatMap byteBits) v = k.foldl (fun acc b => acc * 256 + b.val) v := by
  induction k generalizing v with
  | nil => simp [bitsVal]
  | cons b k ih =>
    have h1 : bitsVal ((b :: k).flatMap byteBits) v =
        bitsVal (k.flatMap byteBits) (bitsVal (byteBits b) v) := by
      simp [bitsVal, List.flatMap_cons, List.foldl_append]
    rw [h1, ih, bitsVal_linear (byteBits b) v, bitsVal_byteBits]
    simp [byteBits]

/-- Double-and-add computes the scalar multiple, for coordinates on which `affineAdd`
is the group addition. -/
theorem affineScalarMult_enc {Pt : Type} [AddCommGroup Pt] (P : Int) (enc : Pt → Int × Int)
    (h0 : enc 0 = (0, 0))
    (hadd : ∀ A B : Pt, affineAdd P (enc A).1 (enc A).2 (enc B).1 (enc B).2 = enc (A + B))
    (Q : Pt) (k : List Byte) :
    affineScalarMult P (enc Q).1 (enc Q).2 k = enc ((SetBytes k).toNat • Q) := by
  have step : ∀ (bits : List Bool) (n : Nat),
      bits.foldl
        (fun acc bit =>
          let d := affineAdd P acc.1 acc.2 acc.1 acc.2
          if bit then affineAdd P d.1 d.2 (enc Q).1 (enc Q).2 else d)
        (enc (n • Q)) = enc (bitsVal bits n • Q) := by
    intro bits
    induction bits with
    | nil => intro n; simp [bitsVal]
    | cons b bits ih =>
      intro n
      simp only [List.foldl_cons]
      have hd : affineAdd P (enc (n • Q)).1 (enc (n • Q)).2 (enc (n • Q)).1 (enc (n • Q)).2 =
          enc ((2 * n) • Q) := by
        rw [hadd, two_mul, add_nsmul]
      cases b with
      | false =>
        simp only [Bool.false_eq_true, if_false]
        rw [hd, ih]
        simp [bitsVal]
      | true =>
        simp only [if_true]
        rw [hd, hadd]
        have e : (2 * n) • Q + Q = (2 * n + 1) • Q := by rw [add_nsmul, one_nsmul]
        rw [e, ih]
        simp [bitsVal]
  unfold affineScalarMult
  have := step (k.flatMap byteBits) 0
  rw [zero_nsmul, h0] at this
  rw [this, bitsVal_flatMap]
  simp [SetBytes]

/-- The curve value `tiny` implements its group of seven points. -/
theorem tiny_groupModel : GroupModel tiny tinyEnc 1 where
  enc_zero := by decide
  add_enc := by decide
  mult_enc := fun Q k => affineScalarMult_enc 11 tinyEnc (by decide) (by decide) Q k
  base_enc := fun k => affineScalarMult_enc 11 tinyEnc (by decide) (by decide) 1 k
  order := by decide
  on_curve := by decide
  enc_neg := by decide

/-- `sqrt3Mod4` meets the contract of `ModSqrt` modulo `11`. -/
theorem sqrt3Mod4_spec_tiny : SqrtSpec sqrt3Mod4 tiny.Params.P := by
  intro x y0 hx0 hxP hy0 hyP h
  have hxP2 : x < 11 := hxP
  have hyP2 : y0 < 11 := hyP
  interval_cases y0 <;> subst h <;> decide

/-- Scalars congruent modulo the order give the same multiple. -/
theorem zsmul_congr {Pt : Type} [AddCommGroup Pt] {N : Int} (hN : 0 < N)
    (hord : ∀ Q : Pt, N.toNat • Q = 0) {z1 z2 : Int} (h : z1 ≡ z2 [ZMOD N]) (Q : Pt) :
    z1 • Q = z2 • Q := by
  obtain ⟨k, hk⟩ := (Int.modEq_iff_dvd.mp h)
  have hNQ : N • Q = 0 := by
    have := hord Q
    rw [← natCast_zsmul, Int.toNat_of_nonneg hN.le] at this
    exact this
  have h2 : z2 = z1 + N * k := by linarith
  rw [h2, add_zsmul, mul_comm, mul_zsmul, hNQ, smul_zero, add_zero]

/-- A root of `y0²` modulo a prime, in `[0, P)`, is `y0` or `-y0 mod P`. -/
theorem sqrt_pm {P y y0 : Int} (hP : Nat.Prime P.toNat) (hy0 : 0 ≤ y) (hyP : y < P)
    (hz0 : 0 ≤ y0) (hzP : y0 < P) (h : y * y % P = y0 * y0 % P) :
    y = y0 ∨ y = (-y0) % P := by
  have hpos := prime_pos hP
  have hp : Prime P := by
    have h1 : Prime ((P.toNat : Nat) : Int) := Nat.prime_iff_prime_int.mp hP
    rwa [Int.toNat_of_nonneg hpos.le] at h1
  have hdvd : P ∣ (y - y0) * (y + y0) := by
    have h1 : y * y ≡ y0 * y0 [ZMOD P] := h
    have h2 := (Int.modEq_iff_dvd.mp h1.symm)
    have e : (y - y0) * (y + y0) = y * y - y0 * y0 := by ring
    rw [e]
    exact h2
  rcases hp.dvd_or_dvd hdvd with h1 | h1
  · left
    have h2 : y ≡ y0 [ZMOD P] := (Int.modEq_iff_dvd.mpr h1).symm
    exact eq_of_modEq_of_range h2 hy0 hyP hz0 hzP
  · right
    have h2 : y ≡ -y0 [ZMOD P] := by
      have h3 : -y0 ≡ y [ZMOD P] := Int.modEq_iff_dvd.mpr (by simpa using h1)
      exact h3.symm
    exact eq_of_modEq_of_range (h2.trans (Int.mod_modEq _ _).symm) hy0 hyP
      (Int.emod_nonneg _ hpos.ne') (Int.emod_lt_of_pos _ hpos)

/-- Decoding the minimal encoding of an integer gives its absolute value. -/
theorem SetBytes_Bytes_natAbs (v : Int) : (SetBytes (Bytes v)).toNat = v.natAbs := by
  unfold SetBytes Bytes
  rw [natBytesAux_value _ _ _ le_rfl, Int.toNat_ofNat]
  simp

/-- The second scalar of the verification of the forged signature: `r1 / s1 ≡ a * (r / s)`. -/
theorem zero_hash_scalar {p : Nat} {a r s v w r1 w1 : Int}
    (h1 : r1 * s * v * w1 ≡ 1 [ZMOD (p : Int)]) (h2 : a * r * v ≡ 1 [ZMOD (p : Int)])
    (h3 : s * w ≡ 1 [ZMOD (p : Int)]) :
    r1 * w1 ≡ a * (r * w) [ZMOD (p : Int)] := by
  rw [← ZMod.intCast_eq_intCast_iff] at *
  push_cast at *
  linear_combination (-((r1 : ZMod p) * w1 * (a * r * v))) * h3 - ((r1 : ZMod p) * w1) * h2 +
    ((a : ZMod p) * r * w) * h1

/-- The x-coordinate does not change under negation of the point. -/
theorem GroupModel.x_neg {c : Curve} {Pt : Type} [AddCommGroup Pt] {enc : Pt → Int × Int}
    {gen : Pt} (hM : GroupModel c enc gen) (Q : Pt) : (enc (-Q)).1 = (enc Q).1 := by
  rw [hM.enc_neg]

/-- The x-coordinate of an integer multiple is that of the multiple by the absolute value,
also when the point is replaced by its negative. -/
theorem GroupModel.x_zsmul {c : Curve} {Pt : Type} [AddCommGroup Pt] {enc : Pt → Int × Int}
    {gen : Pt} (hM : GroupModel c enc gen) (a : Int) (Q Q' : Pt) (hQ : Q' = Q ∨ Q' = -Q) :
    (enc (a • Q)).1 = (enc (a.natAbs • Q')).1 := by
  have h1 : (enc (a • Q)).1 = (enc (a.natAbs • Q)).1 := by
    rcases Int.natAbs_eq a with h | h
    · conv_lhs => rw [h]
      rw [natCast_zsmul]
    · conv_lhs => rw [h]
      rw [neg_zsmul, natCast_zsmul, hM.x_neg]
  rcases hQ with h | h
  · rw [h, h1]
  · rw [h, smul_neg, hM.x_neg, h1]

set_option maxRecDepth 1000000 in
/-- The curve value `mid` implements its group of 53 points. -/
theorem mid_groupModel : GroupModel mid midEnc 1 where
  enc_zero := by decide
  add_enc := by decide
  mult_enc := fun Q k => affineScalarMult_enc 59 midEnc (by decide) (by decide) Q k
  base_enc := fun k => affineScalarMult_enc 59 midEnc (by decide) (by decide) 1 k
  order := by decide
  on_curve := by decide
  enc_neg := by decide

theorem mid_prime : Nat.Prime mid.Params.N.toNat ∧ Nat.Prime mid.Params.P.toNat := by
  constructor
  · show Nat.Prime 53
    norm_num
  · show Nat.Prime 59
    norm_num

/-- `sqrt3Mod4` meets the contract of `ModSqrt` modulo `59`. -/
theorem sqrt3Mod4_spec_mid : SqrtSpec sqrt3Mod4 mid.Params.P := by
  intro x y0 hx0 hxP hy0 hyP h
  have hyP2 : y0 < 59 := hyP
  interval_cases y0 <;> subst h <;> decide

/-- C10 fails where `r` is only the residue of an x-coordinate. The curve value `mid`
implements the group of `y² = x³ - 3x + 37` over `F_59`, of prime order `N = 53`, and
`K = 2·G = (57, 34)`. The signature `(1, 18)` verifies for the digest scalar `0`, through
the point `3·K = (54, 35)` with `54 mod 53 = 1`; for `a = 2`, coprime to `N`, the attack
rebuilds a point from `x = 1` and returns `(4, 36)`, which does not verify. -/
theorem zeroHash_invalid :
    GroupModel mid midEnc 1 ∧
    Nat.Prime mid.Params.N.toNat ∧ Nat.Prime mid.Params.P.toNat ∧
    SqrtSpec sqrt3Mod4 mid.Params.P ∧
    midEnc 2 = (midPub.X, midPub.Y) ∧
    ecdsaVerify midPub 0 1 18 = true ∧
    ModInverse 18 midPub.Curve.Params.N = some 3 ∧
    midPub.Curve.ScalarMult midPub.X midPub.Y (Bytes (1 * 3 % 53)) = (54, 35) ∧
    Int.gcd 2 midPub.Curve.Params.N = 1 ∧
    ECDSAZeroHashAttack sqrt3Mod4 ⟨1, 18⟩ 2 mid = some ⟨4, 36⟩ ∧
    ecdsaVerify midPub 0 4 36 = false :=
  ⟨mid_groupModel, mid_prime.1, mid_prime.2, sqrt3Mod4_spec_mid, by decide, by decide,
    by decide, by decide, by decide, by decide, by decide⟩

/-- C10, amended. On a curve `y² = x³ - 3x + B` over a prime `P` with prime group order
`N`, with `ModSqrt` meeting its contract: for every public key `K`, every signature
`(r, s)` that passes ECDSA verification for the digest scalar `0` under `K` and whose `r`
is the x-coordinate itself of the point `(r·s⁻¹ mod N)·K` (not only its residue modulo
`N`), and every scalar `a` coprime to `N` for which `x(a·(r, y)) mod N` is not `0`:
`ECDSAZeroHashAttack` returns `(r1, s1)` with `r1 = x(a·(r, y)) mod N` for the square root
`y` of `r³ - 3r + B` that `ModSqrt` returns, and `s1 = r1·s·(a·r)⁻¹ mod N`, and `(r1, s1)`
passes ECDSA verification for the digest scalar `0` under `K`. -/
theorem zeroHash_verifies {Pt : Type} [AddCommGroup Pt] (pub : PublicKey)
    (enc : Pt → Int × Int) (gen : Pt) (hM : GroupModel pub.Curve enc gen)
    (ModSqrt : Int → Int → Option Int) (hsqrt : SqrtSpec ModSqrt pub.Curve.Params.P)
    (hP : Nat.Prime pub.Curve.Params.P.toNat) (hN : Nat.Prime pub.Curve.Params.N.toNat)
    (K : Pt) (hK : enc K = (pub.X, pub.Y)) (r s a w : Int)
    (hv : ecdsaVerify pub 0 r s = true)
    (ha : Int.gcd a pub.Curve.Params.N = 1)
    (hw : ModInverse s pub.Curve.Params.N = some w)
    (hx : (pub.Curve.ScalarMult pub.X pub.Y (Bytes (r * w % pub.Curve.Params.N))).1 = r)
    (hr1 : ∀ y, ModSqrt ((r * r * r - (r * 2 + r) + pub.Curve.Params.B) % pub.Curve.Params.P)
        pub.Curve.Params.P = some y →
      (pub.Curve.ScalarMult r y (Bytes a)).1 % pub.Curve.Params.N ≠ 0) :
    ∃ y r1 s1 v,
      ModSqrt ((r * r * r - (r * 2 + r) + pub.Curve.Params.B) % pub.Curve.Params.P)
        pub.Curve.Params.P = some y ∧
      ECDSAZeroHashAttack ModSqrt ⟨r, s⟩ a pub.Curve = some ⟨r1, s1⟩ ∧
      r1 = (pub.Curve.ScalarMult r y (Bytes a)).1 % pub.Curve.Params.N ∧
      a * r * v ≡ 1 [ZMOD pub.Curve.Params.N] ∧
      s1 = r1 * s * v % pub.Curve.Params.N ∧
      ecdsaVerify pub 0 r1 s1 = true := by
  have hNpos := prime_pos hN
  have hPpos := prime_pos hP
  have hN0 : pub.Curve.Params.N ≠ 0 := hNpos.ne'
  have hP0 : pub.Curve.Params.P ≠ 0 := hPpos.ne'
  have hNp : ((pub.Curve.Params.N.toNat : Nat) : Int) = pub.Curve.Params.N :=
    Int.toNat_of_nonneg hNpos.le
  have hX : pub.X = (enc K).1 := by rw [hK]
  have hY : pub.Y = (enc K).2 := by rw [hK]
  -- the base-point term of the verification is the point at infinity
  have hbase : ∀ w' : Int, pub.Curve.ScalarBaseMult (Bytes (0 * w' % pub.Curve.Params.N)) =
      enc 0 := by
    intro w'
    rw [zero_mul, Int.zero_emod, hM.base_enc, SetBytes_Bytes_natAbs]
    simp
  have hmul : ∀ u : Int, 0 ≤ u →
      pub.Curve.ScalarMult pub.X pub.Y (Bytes u) = enc (u • K) := by
    intro u hu
    rw [hX, hY, hM.mult_enc, SetBytes_Bytes_natAbs, ← natCast_zsmul, Int.natAbs_of_nonneg hu]
  -- the given signature
  obtain ⟨hr1', hrN, hs1, hsN, w', hw', heq⟩ := (ecdsaVerify_iff pub 0 r s).mp hv
  rw [hw] at hw'
  obtain rfl : w = w' := Option.some.inj hw'
  have hsw := (ModInverse_spec hNpos hw).2.2
  have hu0 : 0 ≤ r * w % pub.Curve.Params.N := Int.emod_nonneg _ hN0
  rw [hmul _ hu0] at hx
  -- the point `R` and its coordinates
  have hRne : (r * w % pub.Curve.Params.N) • K ≠ 0 := by
    intro hc
    rw [hc, hM.enc_zero] at hx
    have hx' : (0 : Int) = r := hx
    omega
  obtain ⟨-, hxP, hy0, hyP, hcurve⟩ := hM.on_curve _ hRne
  rw [hx] at hxP hcurve
  have hx3 : (enc ((r * w % pub.Curve.Params.N) • K)).2 *
      (enc ((r * w % pub.Curve.Params.N) • K)).2 % pub.Curve.Params.P =
      (r * r * r - (r * 2 + r) + pub.Curve.Params.B) % pub.Curve.Params.P := by
    rw [hcurve]
    congr 1
    ring
  obtain ⟨y, hy, hyy0, hyyP, hyy⟩ := hsqrt _ _ (Int.emod_nonneg _ hP0)
    (Int.emod_lt_of_pos _ hPpos) hy0 hyP hx3
  have hpm := sqrt_pm hP hyy0 hyyP hy0 hyP (by rw [hyy, ← hx3])
  obtain ⟨R', hR', hencR'⟩ : ∃ R' : Pt, (R' = (r * w % pub.Curve.Params.N) • K ∨
      R' = -((r * w % pub.Curve.Params.N) • K)) ∧ enc R' = (r, y) := by
    rcases hpm with h | h
    · exact ⟨_, Or.inl rfl, Prod.ext hx h.symm⟩
    · exact ⟨_, Or.inr rfl, by rw [hM.enc_neg]; exact Prod.ext hx h.symm⟩
  have hsm : pub.Curve.ScalarMult r y (Bytes a) = enc (a.natAbs • R') := by
    have h1 : r = (enc R').1 := by rw [hencR']
    have h2 : y = (enc R').2 := by rw [hencR']
    rw [h1, h2, hM.mult_enc, SetBytes_Bytes_natAbs]
  have hr1ne := hr1 y hy
  -- the inverse of `a * r`
  have hp : Prime pub.Curve.Params.N := by
    have h1 : Prime ((pub.Curve.Params.N.toNat : Nat) : Int) := Nat.prime_iff_prime_int.mp hN
    rwa [hNp] at h1
  have harne : ¬ a * r ≡ 0 [ZMOD pub.Curve.Params.N] := by
    intro hc
    rcases hp.dvd_or_dvd (Int.modEq_zero_iff_dvd.mp hc) with h | h
    · have hco : IsCoprime a pub.Curve.Params.N := Int.isCoprime_iff_gcd_eq_one.mpr ha
      exact hp.not_unit (hco.symm.isUnit_of_dvd h)
    · have := Int.le_of_dvd (by omega) h
      omega
  obtain ⟨v, hv', -, -, hve⟩ := ModInverse_of_prime hN harne
  refine ⟨y, (pub.Curve.ScalarMult r y (Bytes a)).1 % pub.Curve.Params.N,
    (pub.Curve.ScalarMult r y (Bytes a)).1 % pub.Curve.Params.N * s * v % pub.Curve.Params.N,
    v, hy, ?_, rfl, hve, rfl, ?_⟩
  · unfold ECDSAZeroHashAttack
    simp only [bind, pure, Option.some_bind, Mod, hN0, hP0, if_false, hy, hv',
      Option.getD_some]
  · generalize hr1def : (pub.Curve.ScalarMult r y (Bytes a)).1 % pub.Curve.Params.N = r1
      at hr1ne ⊢
    have hr10 : 0 ≤ r1 := by rw [← hr1def]; exact Int.emod_nonneg _ hN0
    have hr1N : r1 < pub.Curve.Params.N := by rw [← hr1def]; exact Int.emod_lt_of_pos _ hNpos
    have hs1ne : r1 * s * v % pub.Curve.Params.N ≠ 0 := by
      intro hc
      have h1 : r1 * s * v ≡ 0 [ZMOD pub.Curve.Params.N] := by simpa [Int.ModEq] using hc
      have h2 := Int.modEq_zero_iff_dvd.mp h1
      rcases hp.dvd_or_dvd h2 with h | h
      · rcases hp.dvd_or_dvd h with h | h
        · have := Int.le_of_dvd (by omega) h
          omega
        · have := Int.le_of_dvd (by omega) h
          omega
      · have h3 := Int.ModEq.mul_left (a * r) (Int.modEq_zero_iff_dvd.mpr h)
        rw [mul_zero] at h3
        have h4 : (1 : Int) ≡ 0 [ZMOD pub.Curve.Params.N] := hve.symm.trans h3
        have h5 := Int.modEq_zero_iff_dvd.mp h4
        exact hp.not_unit (isUnit_of_dvd_one h5)
    obtain ⟨w1, hw1, -, -, hw1e⟩ :=
      ModInverse_of_prime hN (not_modEq_zero_of_emod rfl hs1ne)
    have hs10 : 0 ≤ r1 * s * v % pub.Curve.Params.N := Int.emod_nonneg _ hN0
    have hs1N : r1 * s * v % pub.Curve.Params.N < pub.Curve.Params.N :=
      Int.emod_lt_of_pos _ hNpos
    rw [ecdsaVerify_iff]
    refine ⟨by omega, by omega, by omega, by omega, w1, hw1, ?_⟩
    have hu0' : 0 ≤ r1 * w1 % pub.Curve.Params.N := Int.emod_nonneg _ hN0
    rw [hbase, hmul _ hu0', hM.add_enc, zero_add]
    have hr1x : r1 = (enc (a.natAbs • R')).1 % pub.Curve.Params.N := by rw [← hr1def, hsm]
    refine Eq.trans ?_ hr1x.symm
    congr 1
    -- the scalar `r1 / s1` is `a * (r / s)` modulo `N`
    have hscal : r1 * w1 % pub.Curve.Params.N ≡ a * (r * w % pub.Curve.Params.N)
        [ZMOD pub.Curve.Params.N] := by
      have h1 : r1 * s * v * w1 ≡ 1 [ZMOD pub.Curve.Params.N] :=
        (Int.ModEq.mul_right _ (Int.mod_modEq _ _).symm).trans hw1e
      have h2 : r1 * w1 ≡ a * (r * w) [ZMOD pub.Curve.Params.N] := by
        rw [← hNp] at h1 hve hsw ⊢
        exact zero_hash_scalar h1 hve hsw
      exact (Int.mod_modEq _ _).trans
        (h2.trans (Int.ModEq.mul_left _ (Int.mod_modEq _ _).symm))
    rw [zsmul_congr hNpos hM.order hscal K, mul_zsmul]
    exact hM.x_zsmul a _ R' hR'

theorem tiny_primeP : Nat.Prime tiny.Params.P.toNat := by
  show Nat.Prime 11
  norm_num

/-- C10, amended, at a concrete input: `K = 3·G` on `tiny`, the signature `(2, 1)`, which
verifies for the digest scalar `0` through the point `2·K = (2, 10)`, and `a = 3`; the
attack returns `(3, 4)`. -/
theorem zeroHash_verifies_witness :
    ecdsaVerify tinyPub 0 2 1 = true ∧
    ECDSAZeroHashAttack sqrt3Mod4 ⟨2, 1⟩ 3 tiny = some ⟨3, 4⟩ ∧
    ∃ y r1 s1 v,
      sqrt3Mod4 ((2 * 2 * 2 - (2 * 2 + 2) + tinyPub.Curve.Params.B) % tinyPub.Curve.Params.P)
        tinyPub.Curve.Params.P = some y ∧
      ECDSAZeroHashAttack sqrt3Mod4 ⟨2, 1⟩ 3 tinyPub.Curve = some ⟨r1, s1⟩ ∧
      r1 = (tinyPub.Curve.ScalarMult 2 y (Bytes 3)).1 % tinyPub.Curve.Params.N ∧
      3 * 2 * v ≡ 1 [ZMOD tinyPub.Curve.Params.N] ∧
      s1 = r1 * 1 * v % tinyPub.Curve.Params.N ∧
      ecdsaVerify tinyPub 0 r1 s1 = true :=
  ⟨by decide, by decide,
    zeroHash_verifies tinyPub tinyEnc 1 tiny_groupModel sqrt3Mod4 sqrt3Mod4_spec_tiny
      tiny_primeP tiny_prime 3 (by decide) 2 1 3 1 (by decide) (by decide) (by decide)
      (by decide)
      (by
        intro y hy
        have h1 : sqrt3Mod4
            ((2 * 2 * 2 - (2 * 2 + 2) + tinyPub.Curve.Params.B) % tinyPub.Curve.Params.P)
            tinyPub.Curve.Params.P = some 1 := by decide
        rw [h1] at hy
        obtain rfl := Option.some.inj hy
        decide)⟩

/-! ## Group laws and signature malleability -/

/-- A curve value that implements the group of a curve `y² = x³ - 3x + B` satisfies the
group laws. -/
theorem GroupModel.laws {c : Curve} {Pt : Type} [AddCommGroup Pt] {enc : Pt → Int × Int}
    {gen : Pt} (hM : GroupModel c enc gen) : GroupLaws c enc gen where
  add_enc := hM.add_enc
  mult_enc := hM.mult_enc
  base_enc := hM.base_enc
  order := hM.order
  x_neg := hM.x_neg

/-- Base-point multiplication by the encoding of an integer is the multiple by its
absolute value. -/
theorem GroupLaws.base_natAbs {c : Curve} {Pt : Type} [AddCommGroup Pt]
    {enc : Pt → Int × Int} {gen : Pt} (hL : GroupLaws c enc gen) (u : Int) :
    c.ScalarBaseMult (Bytes u) = enc (u.natAbs • gen) := by
  rw [hL.base_enc, SetBytes_Bytes_natAbs]

theorem GroupLaws.base_zsmul {c : Curve} {Pt : Type} [AddCommGroup Pt]
    {enc : Pt → Int × Int} {gen : Pt} (hL : GroupLaws c enc gen) {u : Int} (hu : 0 ≤ u) :
    c.ScalarBaseMult (Bytes u) = enc (u • gen) := by
  rw [hL.base_natAbs, ← natCast_zsmul, Int.natAbs_of_nonneg hu]

theorem GroupLaws.mult_zsmul {c : Curve} {Pt : Type} [AddCommGroup Pt]
    {enc : Pt → Int × Int} {gen : Pt} (hL : GroupLaws c enc gen) (Q : Pt) {u : Int}
    (hu : 0 ≤ u) :
    c.ScalarMult (enc Q).1 (enc Q).2 (Bytes u) = enc (u • Q) := by
  rw [hL.mult_enc, SetBytes_Bytes_natAbs, ← natCast_zsmul, Int.natAbs_of_nonneg hu]

/-- The x-coordinate of the multiple by the absolute value is that of the multiple. -/
theorem GroupLaws.x_natAbs {c : Curve} {Pt : Type} [AddCommGroup Pt]
    {enc : Pt → Int × Int} {gen : Pt} (hL : GroupLaws c enc gen) (a : Int) (Q : Pt) :
    (enc (a.natAbs • Q)).1 = (enc (a • Q)).1 := by
  rcases Int.natAbs_eq a with h | h
  · conv_rhs => rw [h]
    rw [natCast_zsmul]
  · conv_rhs => rw [h]
    rw [neg_zsmul, natCast_zsmul, hL.x_neg]

/-- The point that ECDSA and SM2 verification compute from two nonnegative scalars. -/
theorem GroupLaws.verify_point {Pt : Type} [AddCommGroup Pt] {pub : PublicKey}
    {enc : Pt → Int × Int} {gen : Pt} (hL : GroupLaws pub.Curve enc gen) {K : Pt}
    (hK : enc K = (pub.X, pub.Y)) {u1 u2 : Int} (h1 : 0 ≤ u1) (h2 : 0 ≤ u2) :
    pub.Curve.Add (pub.Curve.ScalarBaseMult (Bytes u1)).1 (pub.Curve.ScalarBaseMult (Bytes u1)).2
      (pub.Curve.ScalarMult pub.X pub.Y (Bytes u2)).1
      (pub.Curve.ScalarMult pub.X pub.Y (Bytes u2)).2 = enc (u1 • gen + u2 • K) := by
  have hX : pub.X = (enc K).1 := by rw [hK]
  have hY : pub.Y = (enc K).2 := by rw [hK]
  rw [hX, hY, hL.base_zsmul h1, hL.mult_zsmul K h2, hL.add_enc]

/-- The inverse of `N - s` is the negative of the inverse of `s`, modulo `N`. -/
theorem inverse_neg {N s w w' : Int} (hw : s * w ≡ 1 [ZMOD N])
    (hw' : (N - s) * w' ≡ 1 [ZMOD N]) : w' ≡ -w [ZMOD N] := by
  have h1 : s * (-w') ≡ 1 [ZMOD N] := by
    have h2 : (N - s) * w' ≡ s * (-w') [ZMOD N] := by
      apply Int.modEq_iff_dvd.mpr
      exact ⟨-w', by ring⟩
    exact h2.symm.trans hw'
  have h3 := inverse_unique h1 hw
  have h4 := Int.ModEq.neg h3
  rwa [neg_neg] at h4

/-- C11. Malleated ECDSA signatures stay valid: on a curve of prime order `N` whose
x-coordinate does not change under negation, for every public key `K`, digest scalar `e`
and signature `(r, s)` that passes ECDSA verification, `GenerateECDSASig` returns
`(r, N - s)`, with `1 ≤ N - s ≤ N - 1`, and it passes ECDSA verification for the same `e`
and `K`. -/
theorem generateECDSASig_verifies {Pt : Type} [AddCommGroup Pt] (pub : PublicKey)
    (enc : Pt → Int × Int) (gen : Pt) (hL : GroupLaws pub.Curve enc gen)
    (hN : Nat.Prime pub.Curve.Params.N.toNat)
    (K : Pt) (hK : enc K = (pub.X, pub.Y)) (e r s : Int)
    (hv : ecdsaVerify pub e r s = true) :
    GenerateECDSASig ⟨r, s⟩ pub.Curve.Params.N = ⟨r, pub.Curve.Params.N - s⟩ ∧
    1 ≤ pub.Curve.Params.N - s ∧ pub.Curve.Params.N - s ≤ pub.Curve.Params.N - 1 ∧
    ecdsaVerify pub e (GenerateECDSASig ⟨r, s⟩ pub.Curve.Params.N).R
      (GenerateECDSASig ⟨r, s⟩ pub.Curve.Params.N).S = true := by
  have hNpos := prime_pos hN
  have hN0 : pub.Curve.Params.N ≠ 0 := hNpos.ne'
  obtain ⟨hr1, hrN, hs1, hsN, w, hw, heq⟩ := (ecdsaVerify_iff pub e r s).mp hv
  have hsw := (ModInverse_spec hNpos hw).2.2
  refine ⟨rfl, by omega, by omega, ?_⟩
  show ecdsaVerify pub e r (pub.Curve.Params.N - s) = true
  have hs'ne : ¬ pub.Curve.Params.N - s ≡ 0 [ZMOD pub.Curve.Params.N] := by
    intro hc
    have h1 : (pub.Curve.Params.N - s) % pub.Curve.Params.N = pub.Curve.Params.N - s :=
      Int.emod_eq_of_lt (by omega) (by omega)
    have h2 : (pub.Curve.Params.N - s) % pub.Curve.Params.N = 0 := by
      simpa [Int.ModEq] using hc
    omega
  obtain ⟨w', hw', -, -, hw'e⟩ := ModInverse_of_prime hN hs'ne
  have hneg := inverse_neg hsw hw'e
  rw [ecdsaVerify_iff]
  refine ⟨hr1, hrN, by omega, by omega, w', hw', ?_⟩
  have hu1 : 0 ≤ e * w % pub.Curve.Params.N := Int.emod_nonneg _ hN0
  have hu2 : 0 ≤ r * w % pub.Curve.Params.N := Int.emod_nonneg _ hN0
  have hu1' : 0 ≤ e * w' % pub.Curve.Params.N := Int.emod_nonneg _ hN0
  have hu2' : 0 ≤ r * w' % pub.Curve.Params.N := Int.emod_nonneg _ hN0
  rw [hL.verify_point hK hu1 hu2] at heq
  rw [hL.verify_point hK hu1' hu2']
  have hc1 : e * w' % pub.Curve.Params.N ≡ -(e * w % pub.Curve.Params.N)
      [ZMOD pub.Curve.Params.N] := by
    refine (Int.mod_modEq _ _).trans ?_
    refine ((Int.ModEq.mul_left e hneg).trans ?_)
    rw [mul_neg]
    exact Int.ModEq.neg (Int.mod_modEq _ _).symm
  have hc2 : r * w' % pub.Curve.Params.N ≡ -(r * w % pub.Curve.Params.N)
      [ZMOD pub.Curve.Params.N] := by
    refine (Int.mod_modEq _ _).trans ?_
    refine ((Int.ModEq.mul_left r hneg).trans ?_)
    rw [mul_neg]
    exact Int.ModEq.neg (Int.mod_modEq _ _).symm
  rw [zsmul_congr hNpos hL.order hc1 gen, zsmul_congr hNpos hL.order hc2 K, neg_zsmul,
    neg_zsmul, ← neg_add, hL.x_neg]
  exact heq

/-- C11 at a concrete input: `K = 3·G` on `tiny`, digest scalar `1`, signature `(3, 1)`;
the malleated signature is `(3, 6)`. -/
theorem generateECDSASig_verifies_witness :
    ecdsaVerify tinyPub 1 3 1 = true ∧
    GenerateECDSASig ⟨3, 1⟩ tinyPub.Curve.Params.N = ⟨3, 6⟩ ∧
    ecdsaVerify tinyPub 1 (GenerateECDSASig ⟨3, 1⟩ tinyPub.Curve.Params.N).R
      (GenerateECDSASig ⟨3, 1⟩ tinyPub.Curve.Params.N).S = true :=
  ⟨by decide, by decide,
    (generateECDSASig_verifies tinyPub tinyEnc 1 tiny_groupModel.laws tiny_prime 3
      (by decide) 1 3 1 (by decide)).2.2.2⟩

/-- C12. `GenerateECDSASig` is an involution that never changes `R`: for every signature
`(R, S)` and every `N`, applying it twice gives `(R, S)` back, and the `R` component of its
result is `R`. -/
theorem generateECDSASig_involution (sig : ecSignature) (n : Int) :
    GenerateECDSASig (GenerateECDSASig sig n) n = sig ∧ (GenerateECDSASig sig n).R = sig.R := by
  constructor
  · cases sig with
    | mk R S =>
      simp [GenerateECDSASig]
  · rfl

/-! ## Results of the SM2 relation recovery and of the ECDSA forgery -/

/-- An element with an inverse modulo `N` is coprime to `N`. -/
theorem gcd_eq_one_of_inverse {N x v : Int} (h : x * v ≡ 1 [ZMOD N]) : Int.gcd x N = 1 := by
  obtain ⟨k, hk⟩ := Int.modEq_iff_dvd.mp h
  exact Int.isCoprime_iff_gcd_eq_one.mp ⟨v, k, by linarith⟩

/-- `ModInverse` is nil exactly when there is no inverse. -/
theorem ModInverse_eq_none_iff {g n : Int} (hn : 0 < n) :
    ModInverse g n = none ↔ ¬ ∃ v, g * v ≡ 1 [ZMOD n] := by
  constructor
  · rintro h ⟨v, hv⟩
    obtain ⟨w, hw⟩ := ModInverse_exists hn (gcd_eq_one_of_inverse hv)
    rw [h] at hw
    cases hw
  · intro h
    cases hm : ModInverse g n with
    | none => rfl
    | some w => exact absurd ⟨w, (ModInverse_spec hn hm).2.2⟩ h

/-- C13. For an order `N > 0`, `RecoverSM2RandomRelationship` returns the nil pair exactly
when `t1 = s1 + r1` has no inverse modulo `N` (for prime `N`: exactly when `t1 ≡ 0`); in
every other case it returns `a = t1⁻¹ * t2 mod N` and `b = (s2 - a * s1) mod N`, both in
`[0, N)`, where `t2 = s2 + r2`. -/
theorem recoverRelationship_spec (sig1 sig2 : ecSignature) (N : Int) (hN : 0 < N) :
    (RecoverSM2RandomRelationship sig1 sig2 N = some none ↔
      ¬ ∃ v, (sig1.S + sig1.R) * v ≡ 1 [ZMOD N]) ∧
    (Nat.Prime N.toNat →
      (RecoverSM2RandomRelationship sig1 sig2 N = some none ↔
        sig1.S + sig1.R ≡ 0 [ZMOD N])) ∧
    ((∃ v, (sig1.S + sig1.R) * v ≡ 1 [ZMOD N]) →
      ∃ v a b, (sig1.S + sig1.R) * v ≡ 1 [ZMOD N] ∧
        RecoverSM2RandomRelationship sig1 sig2 N = some (some (a, b)) ∧
        a = v * (sig2.S + sig2.R) % N ∧ b = (sig2.S - a * sig1.S) % N ∧
        0 ≤ a ∧ a < N ∧ 0 ≤ b ∧ b < N) := by
  have hN0 : N ≠ 0 := hN.ne'
  have hnil : RecoverSM2RandomRelationship sig1 sig2 N = some none ↔
      ModInverse (sig1.S + sig1.R) N = none := by
    cases hm : ModInverse (sig1.S + sig1.R) N with
    | none => simp [recoverRelationship_nil sig1 sig2 N hm]
    | some v => simp [recoverRelationship_eval sig1 sig2 N v hN0 hm]
  refine ⟨hnil.trans (ModInverse_eq_none_iff hN), ?_, ?_⟩
  · intro hp
    rw [hnil, ModInverse_eq_none_iff hN]
    constructor
    · intro h
      by_contra hc
      obtain ⟨w, -, -, -, hw⟩ := ModInverse_of_prime hp hc
      exact h ⟨w, hw⟩
    · rintro h ⟨v, hv⟩
      have h1 := Int.ModEq.mul_right v h
      rw [zero_mul] at h1
      have h2 : (1 : Int) ≡ 0 [ZMOD N] := hv.symm.trans h1
      have h3 := Int.modEq_zero_iff_dvd.mp h2
      have h4 : N = 1 := by
        have := Int.le_of_dvd one_pos h3
        omega
      rw [h4] at hp
      exact Nat.not_prime_one hp
  · rintro ⟨v0, hv0⟩
    obtain ⟨v, hv⟩ := ModInverse_exists hN (gcd_eq_one_of_inverse hv0)
    refine ⟨v, _, _, (ModInverse_spec hN hv).2.2, recoverRelationship_eval sig1 sig2 N v hN0 hv,
      rfl, rfl, Int.emod_nonneg _ hN0, Int.emod_lt_of_pos _ hN, Int.emod_nonneg _ hN0,
      Int.emod_lt_of_pos _ hN⟩

/-- C13 at concrete inputs modulo `7`: `s1 + r1 = 7` without inverse, and `s1 + r1 = 3`. -/
theorem recoverRelationship_spec_witness :
    RecoverSM2RandomRelationship ⟨1, 6⟩ ⟨2, 1⟩ 7 = some none ∧
    RecoverSM2RandomRelationship ⟨3, 4⟩ ⟨2, 1⟩ 7 = some none ∧
    ∃ v a b, (1 + 2) * v ≡ 1 [ZMOD 7] ∧
      RecoverSM2RandomRelationship ⟨2, 1⟩ ⟨6, 6⟩ 7 = some (some (a, b)) ∧
      a = v * (6 + 6) % 7 ∧ b = (6 - a * 1) % 7 ∧ 0 ≤ a ∧ a < 7 ∧ 0 ≤ b ∧ b < 7 :=
  ⟨(recoverRelationship_spec ⟨1, 6⟩ ⟨2, 1⟩ 7 (by decide)).1.mpr (by
      rintro ⟨v, hv⟩
      have h := gcd_eq_one_of_inverse hv
      revert h
      decide),
   ((recoverRelationship_spec ⟨3, 4⟩ ⟨2, 1⟩ 7 (by decide)).2.1
      (by show Nat.Prime 7; norm_num)).mpr (by decide),
   (recoverRelationship_spec ⟨2, 1⟩ ⟨6, 6⟩ 7 (by decide)).2.2 ⟨5, by decide⟩⟩

/-- C14. `ECDSAGenerateSignatureAttack` returns the all-nil triple when `b = 0`, for every
public key and every `a`; and for an order `N > 1` and every `b` invertible modulo `N` it
returns a triple `(r, s, e)` with `r` and `s` in `[0, N)` and `e` the minimal big-endian
encoding of `(a * s) mod N`. -/
theorem ecdsaForgery_outputs (pub : PublicKey) (a : Int) :
    ECDSAGenerateSignatureAttack pub a 0 = some none ∧
    ∀ b : Int, 1 < pub.Curve.Params.N → (∃ v, b * v ≡ 1 [ZMOD pub.Curve.Params.N]) →
      ∃ r s e, ECDSAGenerateSignatureAttack pub a b = some (some (r, s, e)) ∧
        0 ≤ r ∧ r < pub.Curve.Params.N ∧ 0 ≤ s ∧ s < pub.Curve.Params.N ∧
        e.data = Bytes (a * s % pub.Curve.Params.N) := by
  constructor
  · unfold ECDSAGenerateSignatureAttack
    simp
  · rintro b hN ⟨v, hv⟩
    have hpos : 0 < pub.Curve.Params.N := by omega
    have hN0 : pub.Curve.Params.N ≠ 0 := hpos.ne'
    have hb : b ≠ 0 := by
      rintro rfl
      rw [zero_mul] at hv
      have h3 := Int.modEq_zero_iff_dvd.mp hv.symm
      have := Int.le_of_dvd one_pos h3
      omega
    obtain ⟨bi, hbi⟩ := ModInverse_exists hpos (gcd_eq_one_of_inverse hv)
    exact ⟨_, _, _, ecdsaForgery_eval pub a b bi hN0 hb hbi, Int.emod_nonneg _ hN0,
      Int.emod_lt_of_pos _ hpos, Int.emod_nonneg _ hN0, Int.emod_lt_of_pos _ hpos, rfl⟩

/-- C14 at concrete inputs: `K = 3·G` on `small`, `a = 5`, with `b = 0` and with `b = 9`,
whose inverse modulo `131` is `102`. -/
theorem ecdsaForgery_outputs_witness :
    ECDSAGenerateSignatureAttack smallPub 5 0 = some none ∧
    ∃ r s e, ECDSAGenerateSignatureAttack smallPub 5 9 = some (some (r, s, e)) ∧
      0 ≤ r ∧ r < smallPub.Curve.Params.N ∧ 0 ≤ s ∧ s < smallPub.Curve.Params.N ∧
      e.data = Bytes (5 * s % smallPub.Curve.Params.N) :=
  ⟨(ecdsaForgery_outputs smallPub 5).1,
   (ecdsaForgery_outputs smallPub 5).2 9 (by decide) ⟨102, by decide⟩⟩

/-! ## The weak signers -/

/-- The result of `WeakECDSASign` for a nonzero order when the derived `r` is `0`. -/
theorem WeakECDSASign_r_zero (rand : Int) (priv : PrivateKey) (hash : ByteSlice)
    (hN : priv.PublicKey.Curve.Params.N ≠ 0)
    (hr : (priv.PublicKey.Curve.ScalarBaseMult (Bytes rand)).1
      % priv.PublicKey.Curve.Params.N = 0) :
    WeakECDSASign rand priv hash = some none := by
  unfold WeakECDSASign
  simp only [bind, pure, hN, if_false, Option.some_bind, hr, if_true]

/-- C15 fails for `WeakSM2Sign`: the nonce `0` has no inverse modulo the order, and it is
signed with. On `tiny` (prime order `7`) with the key `3` the result is the non-nil
`(6, 6)`; on the SM2 curve with the key `2` and the digest of the tests the result is
non-nil as well. -/
theorem weakSM2Sign_accepts_zero_nonce :
    Nat.Prime tinyPriv.PublicKey.Curve.Params.N.toNat ∧
    ModInverse 0 tinyPriv.PublicKey.Curve.Params.N = none ∧
    (¬ ∃ v : Int, 0 * v ≡ 1 [ZMOD tinyPriv.PublicKey.Curve.Params.N]) ∧
    WeakSM2Sign tinySm2 0 tinyPriv digest12345678 = some (some (6, 6)) ∧
    WeakSM2Sign tinySm2 0 tinyPriv digest12345678 ≠ some none ∧
    ModInverse 0 sm2Priv.PublicKey.Curve.Params.N = none ∧
    WeakSM2Sign sm2Std 0 sm2Priv digest12345678 =
      some (some
        (22252025330403739760425975822268101575568545841231800833719309973427962511360,
         100957405656753755582803027999175491715682593164136544012030936040674797371683)) := by
  refine ⟨tiny_prime, by decide, ?_, by decide, by decide, by decide!, by decide!⟩
  rintro ⟨v, hv⟩
  rw [zero_mul] at hv
  revert hv
  decide

/-- C15, amended. For a nonzero order `N`: `WeakECDSASign` returns the nil pair whenever
the derived `r` is zero, whenever the derived `s` is zero, and, on a curve of prime order
whose operations implement the group with `(0, 0)` for the point at infinity, whenever the
nonce has no inverse modulo `N`; `WeakSM2Sign`, for a digest slice of capacity at least 32,
returns the nil pair whenever the derived `r` is zero and whenever the derived `s` is
zero. (It does not test the nonce for an inverse.) -/
theorem weakSigners_reject {Pt : Type} [AddCommGroup Pt] (sm2P256 : Sm2P256Curve)
    (rand : Int) (priv : PrivateKey) (hash : ByteSlice) (enc : Pt → Int × Int) (gen : Pt)
    (hN : priv.PublicKey.Curve.Params.N ≠ 0) :
    ((priv.PublicKey.Curve.ScalarBaseMult (Bytes rand)).1 % priv.PublicKey.Curve.Params.N = 0 →
      WeakECDSASign rand priv hash = some none) ∧
    (∀ kInv, ModInverse rand priv.PublicKey.Curve.Params.N = some kInv →
      (priv.D * ((priv.PublicKey.Curve.ScalarBaseMult (Bytes rand)).1
          % priv.PublicKey.Curve.Params.N) + hashToInt hash priv.PublicKey.Curve) * kInv
        % priv.PublicKey.Curve.Params.N = 0 →
      WeakECDSASign rand priv hash = some none) ∧
    (GroupLaws priv.PublicKey.Curve enc gen → enc 0 = (0, 0) →
      Nat.Prime priv.PublicKey.Curve.Params.N.toNat →
      (¬ ∃ v, rand * v ≡ 1 [ZMOD priv.PublicKey.Curve.Params.N]) →
      WeakECDSASign rand priv hash = some none) ∧
    (∀ h32, hash.upTo 32 = some h32 →
      (SetBytes h32 + (sm2P256.curve.ScalarBaseMult (Bytes rand)).1)
        % priv.PublicKey.Curve.Params.N = 0 →
      WeakSM2Sign sm2P256 rand priv hash = some none) ∧
    (∀ h32, hash.upTo 32 = some h32 →
      (rand - (SetBytes h32 + (sm2P256.curve.ScalarBaseMult (Bytes rand)).1)
            % priv.PublicKey.Curve.Params.N * priv.D % priv.PublicKey.Curve.Params.N)
          % priv.PublicKey.Curve.Params.N *
          sm2P256.Inverse ((1 + priv.D) % priv.PublicKey.Curve.Params.N)
          % priv.PublicKey.Curve.Params.N = 0 →
      WeakSM2Sign sm2P256 rand priv hash = some none) := by
  refine ⟨WeakECDSASign_r_zero rand priv hash hN, ?_, ?_, ?_, ?_⟩
  · intro kInv hk hs
    unfold WeakECDSASign
    simp only [bind, pure, hN, if_false, Option.some_bind, hk, hs, if_true]
    split_ifs <;> rfl
  · intro hL h0 hp hinv
    apply WeakECDSASign_r_zero rand priv hash hN
    have hpos := prime_pos hp
    have hz : rand ≡ 0 [ZMOD priv.PublicKey.Curve.Params.N] := by
      by_contra hc
      obtain ⟨w, -, -, -, hw⟩ := ModInverse_of_prime hp hc
      exact hinv ⟨w, hw⟩
    have hz2 : ((rand.natAbs : Nat) : Int) ≡ 0 [ZMOD priv.PublicKey.Curve.Params.N] := by
      apply Int.modEq_zero_iff_dvd.mpr
      rw [Int.natCast_natAbs]
      exact (dvd_abs _ _).mpr (Int.modEq_zero_iff_dvd.mp hz)
    have hpt : rand.natAbs • gen = 0 := by
      rw [← natCast_zsmul, zsmul_congr hpos hL.order hz2 gen, zero_zsmul]
    rw [hL.base_natAbs, hpt, h0]
    simp
  · intro h32 hu hr
    unfold WeakSM2Sign
    simp only [bind, pure, hu, Option.some_bind, Mod, hN, if_false, hr, if_true]
  · intro h32 hu hs
    unfold WeakSM2Sign
    simp only [bind, pure, hu, Option.some_bind, Mod, hN, if_false, hs, if_true]
    split_ifs <;> rfl

/-- C15, amended, at concrete inputs on `tiny`: for `WeakECDSASign` the nonce `0` (derived
`r = 0`), the nonce `1` (derived `s = 0`) and the nonce `7` (no inverse modulo `7`); for
`WeakSM2Sign` the nonce `2` (derived `r = 0`) and, with the key `2`, the nonce `4` (derived
`s = 0`). -/
theorem weakSigners_reject_witness :
    WeakECDSASign 0 tinyPriv digest12345678 = some none ∧
    WeakECDSASign 1 tinyPriv digest12345678 = some none ∧
    WeakECDSASign 7 tinyPriv digest12345678 = some none ∧
    WeakSM2Sign tinySm2 2 tinyPriv digest12345678 = some none ∧
    WeakSM2Sign tinySm2 4 tinyPriv2 digest12345678 = some none :=
  ⟨(weakSigners_reject tinySm2 0 tinyPriv digest12345678 tinyEnc 1 (by decide)).1 (by decide),
   (weakSigners_reject tinySm2 1 tinyPriv digest12345678 tinyEnc 1 (by decide)).2.1 1
      (by decide) (by decide),
   (weakSigners_reject tinySm2 7 tinyPriv digest12345678 tinyEnc 1 (by decide)).2.2.1
      tiny_groupModel.laws tiny_groupModel.enc_zero tiny_prime
      (by
        rintro ⟨v, hv⟩
        have h := gcd_eq_one_of_inverse hv
        revert h
        decide),
   (weakSigners_reject tinySm2 2 tinyPriv digest12345678 tinyEnc 1 (by decide)).2.2.2.1
      digest32.data (by decide) (by decide),
   (weakSigners_reject tinySm2 4 tinyPriv2 digest12345678 tinyEnc 1 (by decide)).2.2.2.2
      digest32.data (by decide) (by decide)⟩

/-- Unfolding of `sm2Verify`. -/
theorem sm2Verify_iff (pub : PublicKey) (e r s : Int) :
    sm2Verify pub e r s = true ↔
      1 ≤ r ∧ r ≤ pub.Curve.Params.N - 1 ∧ 1 ≤ s ∧ s ≤ pub.Curve.Params.N - 1 ∧
      (r + s) % pub.Curve.Params.N ≠ 0 ∧
      (e + (pub.Curve.Add (pub.Curve.ScalarBaseMult (Bytes s)).1
          (pub.Curve.ScalarBaseMult (Bytes s)).2
          (pub.Curve.ScalarMult pub.X pub.Y (Bytes ((r + s) % pub.Curve.Params.N))).1
          (pub.Curve.ScalarMult pub.X pub.Y (Bytes ((r + s) % pub.Curve.Params.N))).2).1)
        % pub.Curve.Params.N = r := by
  unfold sm2Verify
  by_cases hr : r < 1 ∨ pub.Curve.Params.N - 1 < r ∨ s < 1 ∨ pub.Curve.Params.N - 1 < s
  · simp only [hr, if_true]
    constructor
    · intro h; cases h
    · rintro ⟨h1, h2, h3, h4, -⟩
      omega
  · simp only [hr, if_false]
    have hr2 : 1 ≤ r ∧ r ≤ pub.Curve.Params.N - 1 ∧ 1 ≤ s ∧ s ≤ pub.Curve.Params.N - 1 := by
      omega
    by_cases ht : (r + s) % pub.Curve.Params.N = 0
    · simp [ht]
    · simp [ht, hr2.1, hr2.2.1, hr2.2.2.1, hr2.2.2.2]

/-- C16 fails on `tiny` with `K = 3·G`: the signature `(2, 1)` passes SM2 verification for
the digest scalar `6`, and `(2, 7 - 1) = (2, 6)` does not. -/
theorem generateECDSASig_sm2_invalid :
    Nat.Prime tinyPub.Curve.Params.N.toNat ∧
    tinyPub.Curve.ScalarBaseMult (Bytes 3) = (tinyPub.X, tinyPub.Y) ∧
    sm2Verify tinyPub 6 2 1 = true ∧
    GenerateECDSASig ⟨2, 1⟩ tinyPub.Curve.Params.N = ⟨2, 6⟩ ∧
    sm2Verify tinyPub 6 2 6 = false :=
  ⟨tiny_prime, by decide, by decide, by decide, by decide⟩

/-- C16, amended. For every public key `K`, digest scalar `e` and signature `(r, s)` that
passes SM2 verification, the output `(r, N - s)` of `GenerateECDSASig` has
`1 ≤ N - s ≤ N - 1`, and it passes SM2 verification for the same `e` and `K` exactly when
`(r - s) mod N ≠ 0` and the x-coordinate of `(N - s)·G + ((r - s) mod N)·K` is congruent
modulo `N` to that of `s·G + ((r + s) mod N)·K`. -/
theorem generateECDSASig_sm2 (pub : PublicKey) (e r s : Int)
    (hv : sm2Verify pub e r s = true) :
    GenerateECDSASig ⟨r, s⟩ pub.Curve.Params.N = ⟨r, pub.Curve.Params.N - s⟩ ∧
    1 ≤ pub.Curve.Params.N - s ∧ pub.Curve.Params.N - s ≤ pub.Curve.Params.N - 1 ∧
    (sm2Verify pub e (GenerateECDSASig ⟨r, s⟩ pub.Curve.Params.N).R
        (GenerateECDSASig ⟨r, s⟩ pub.Curve.Params.N).S = true ↔
      (r - s) % pub.Curve.Params.N ≠ 0 ∧
      (pub.Curve.Add (pub.Curve.ScalarBaseMult (Bytes (pub.Curve.Params.N - s))).1
          (pub.Curve.ScalarBaseMult (Bytes (pub.Curve.Params.N - s))).2
          (pub.Curve.ScalarMult pub.X pub.Y (Bytes ((r - s) % pub.Curve.Params.N))).1
          (pub.Curve.ScalarMult pub.X pub.Y (Bytes ((r - s) % pub.Curve.Params.N))).2).1
        ≡
      (pub.Curve.Add (pub.Curve.ScalarBaseMult (Bytes s)).1
          (pub.Curve.ScalarBaseMult (Bytes s)).2
          (pub.Curve.ScalarMult pub.X pub.Y (Bytes ((r + s) % pub.Curve.Params.N))).1
          (pub.Curve.ScalarMult pub.X pub.Y (Bytes ((r + s) % pub.Curve.Params.N))).2).1
        [ZMOD pub.Curve.Params.N]) := by
  obtain ⟨hr1, hrN, hs1, hsN, -, heq⟩ := (sm2Verify_iff pub e r s).mp hv
  refine ⟨rfl, by omega, by omega, ?_⟩
  show sm2Verify pub e r (pub.Curve.Params.N - s) = true ↔ _
  rw [sm2Verify_iff]
  have ht : (r + (pub.Curve.Params.N - s)) % pub.Curve.Params.N =
      (r - s) % pub.Curve.Params.N := by
    have e1 : r + (pub.Curve.Params.N - s) = r - s + pub.Curve.Params.N := by ring
    rw [e1, Int.add_emod_self]
  rw [ht]
  generalize (pub.Curve.Add (pub.Curve.ScalarBaseMult (Bytes (pub.Curve.Params.N - s))).1
          (pub.Curve.ScalarBaseMult (Bytes (pub.Curve.Params.N - s))).2
          (pub.Curve.ScalarMult pub.X pub.Y (Bytes ((r - s) % pub.Curve.Params.N))).1
          (pub.Curve.ScalarMult pub.X pub.Y (Bytes ((r - s) % pub.Curve.Params.N))).2).1 = X'
  generalize (pub.Curve.Add (pub.Curve.ScalarBaseMult (Bytes s)).1
          (pub.Curve.ScalarBaseMult (Bytes s)).2
          (pub.Curve.ScalarMult pub.X pub.Y (Bytes ((r + s) % pub.Curve.Params.N))).1
          (pub.Curve.ScalarMult pub.X pub.Y (Bytes ((r + s) % pub.Curve.Params.N))).2).1 = X
    at heq
  constructor
  · rintro ⟨-, -, -, -, ht', heq'⟩
    refine ⟨ht', ?_⟩
    have h1 : e + X' ≡ e + X [ZMOD pub.Curve.Params.N] := by
      show (e + X') % _ = (e + X) % _
      rw [heq, heq']
    exact Int.ModEq.add_left_cancel' e h1
  · rintro ⟨ht', hx⟩
    refine ⟨hr1, hrN, by omega, by omega, ht', ?_⟩
    have h1 : (e + X') % pub.Curve.Params.N = (e + X) % pub.Curve.Params.N :=
      Int.ModEq.add_left e hx
    rw [h1]
    exact heq

/-- C16, amended, at a concrete input: the signature `(2, 1)` for the digest scalar `6`
under `K = 3·G` on `tiny`. -/
theorem generateECDSASig_sm2_witness :
    sm2Verify tinyPub 6 2 1 = true ∧
    GenerateECDSASig ⟨2, 1⟩ tinyPub.Curve.Params.N = ⟨2, tinyPub.Curve.Params.N - 1⟩ ∧
    1 ≤ tinyPub.Curve.Params.N - 1 ∧
    tinyPub.Curve.Params.N - 1 ≤ tinyPub.Curve.Params.N - 1 ∧
    (sm2Verify tinyPub 6 (GenerateECDSASig ⟨2, 1⟩ tinyPub.Curve.Params.N).R
        (GenerateECDSASig ⟨2, 1⟩ tinyPub.Curve.Params.N).S = true ↔
      (2 - 1) % tinyPub.Curve.Params.N ≠ 0 ∧
      (tinyPub.Curve.Add (tinyPub.Curve.ScalarBaseMult (Bytes (tinyPub.Curve.Params.N - 1))).1
          (tinyPub.Curve.ScalarBaseMult (Bytes (tinyPub.Curve.Params.N - 1))).2
          (tinyPub.Curve.ScalarMult tinyPub.X tinyPub.Y
            (Bytes ((2 - 1) % tinyPub.Curve.Params.N))).1
          (tinyPub.Curve.ScalarMult tinyPub.X tinyPub.Y
            (Bytes ((2 - 1) % tinyPub.Curve.Params.N))).2).1
        ≡
      (tinyPub.Curve.Add (tinyPub.Curve.ScalarBaseMult (Bytes 1)).1
          (tinyPub.Curve.ScalarBaseMult (Bytes 1)).2
          (tinyPub.Curve.ScalarMult tinyPub.X tinyPub.Y
            (Bytes ((2 + 1) % tinyPub.Curve.Params.N))).1
          (tinyPub.Curve.ScalarMult tinyPub.X tinyPub.Y
            (Bytes ((2 + 1) % tinyPub.Curve.Params.N))).2).1
        [ZMOD tinyPub.Curve.Params.N]) :=
  ⟨by decide, generateECDSASig_sm2 tinyPub 6 2 1 (by decide)⟩

/-- The scalar of the point that verification of a `WeakECDSASign` signature computes:
`(e + r * D) / s ≡ rand`. -/
theorem ecdsa_verify_scalar {p : Nat} {D e r s w rand ki : Int}
    (hk : rand * ki ≡ 1 [ZMOD (p : Int)]) (hs : s ≡ (D * r + e) * ki [ZMOD (p : Int)])
    (hw : s * w ≡ 1 [ZMOD (p : Int)]) :
    e * w + r * w * D ≡ rand [ZMOD (p : Int)] := by
  rw [← ZMod.intCast_eq_intCast_iff] at *
  push_cast at *
  linear_combination (-(((D : ZMod p) * r + e) * w)) * hk + (-((rand : ZMod p) * w)) * hs +
    (rand : ZMod p) * hw

/-- C17. `WeakECDSASign` produces standard ECDSA signatures: on a curve of prime order `N`
whose operations implement the group, for a private key `D` (in particular `0 < D < N`)
with `K = D·G`, a
digest `h` and a nonce `rand`, if `WeakECDSASign` returns the non-nil `(r, s)` then
`r = x(rand·G) mod N`, `s ≡ rand⁻¹ * (hashToInt h + D * r) (mod N)`, `1 ≤ r, s ≤ N - 1`, and
`(r, s)` passes ECDSA verification for the digest scalar `hashToInt h` under `K`. -/
theorem weakECDSASign_standard {Pt : Type} [AddCommGroup Pt] (pub : PublicKey)
    (enc : Pt → Int × Int) (gen : Pt) (hL : GroupLaws pub.Curve enc gen)
    (hN : Nat.Prime pub.Curve.Params.N.toNat)
    (D : Int)
    (hK : enc (D • gen) = (pub.X, pub.Y)) (h : ByteSlice) (rand r s : Int)
    (hs : WeakECDSASign rand { PublicKey := pub, D := D } h = some (some (r, s))) :
    r = (enc (rand • gen)).1 % pub.Curve.Params.N ∧
    (∃ ki, rand * ki ≡ 1 [ZMOD pub.Curve.Params.N] ∧
      s ≡ ki * (hashToInt h pub.Curve + D * r) [ZMOD pub.Curve.Params.N]) ∧
    1 ≤ r ∧ r ≤ pub.Curve.Params.N - 1 ∧ 1 ≤ s ∧ s ≤ pub.Curve.Params.N - 1 ∧
    ecdsaVerify pub (hashToInt h pub.Curve) r s = true := by
  obtain ⟨hN0, hr, hrne, hsne, ki, hki, hse⟩ := WeakECDSASign_some hs
  dsimp only at hN0 hr hse hki
  have hNpos := prime_pos hN
  have hNp : ((pub.Curve.Params.N.toNat : Nat) : Int) = pub.Curve.Params.N :=
    Int.toNat_of_nonneg hNpos.le
  have hkie := (ModInverse_spec hNpos hki).2.2
  have hrx : r = (enc (rand • gen)).1 % pub.Curve.Params.N := by
    rw [hr, hL.base_natAbs, hL.x_natAbs]
  have hsm : s ≡ (D * r + hashToInt h pub.Curve) * ki [ZMOD pub.Curve.Params.N] := by
    rw [hse]; exact Int.mod_modEq _ _
  have hr0 : 0 ≤ r := by rw [hr]; exact Int.emod_nonneg _ hN0
  have hrN : r < pub.Curve.Params.N := by rw [hr]; exact Int.emod_lt_of_pos _ hNpos
  have hs0 : 0 ≤ s := by rw [hse]; exact Int.emod_nonneg _ hN0
  have hsN : s < pub.Curve.Params.N := by rw [hse]; exact Int.emod_lt_of_pos _ hNpos
  refine ⟨hrx, ⟨ki, hkie, ?_⟩, by omega, by omega, by omega, by omega, ?_⟩
  · have e : ki * (hashToInt h pub.Curve + D * r) = (D * r + hashToInt h pub.Curve) * ki := by
      ring
    rw [e]
    exact hsm
  · obtain ⟨w, hw, -, -, hwe⟩ := ModInverse_of_prime hN (not_modEq_zero_of_emod hse hsne)
    rw [ecdsaVerify_iff]
    refine ⟨by omega, by omega, by omega, by omega, w, hw, ?_⟩
    have hu1 : 0 ≤ hashToInt h pub.Curve * w % pub.Curve.Params.N := Int.emod_nonneg _ hN0
    have hu2 : 0 ≤ r * w % pub.Curve.Params.N := Int.emod_nonneg _ hN0
    rw [hL.verify_point hK hu1 hu2, ← mul_zsmul, ← add_zsmul]
    have hscal : hashToInt h pub.Curve * w % pub.Curve.Params.N +
        r * w % pub.Curve.Params.N * D ≡ rand [ZMOD pub.Curve.Params.N] := by
      have h1 : hashToInt h pub.Curve * w % pub.Curve.Params.N +
          r * w % pub.Curve.Params.N * D ≡ hashToInt h pub.Curve * w + r * w * D
          [ZMOD pub.Curve.Params.N] :=
        Int.ModEq.add (Int.mod_modEq _ _) (Int.ModEq.mul_right _ (Int.mod_modEq _ _))
      have h2 : hashToInt h pub.Curve * w + r * w * D ≡ rand [ZMOD pub.Curve.Params.N] := by
        rw [← hNp] at hkie hsm hwe ⊢
        exact ecdsa_verify_scalar hkie hsm hwe
      exact h1.trans h2
    rw [zsmul_congr hNpos hL.order hscal gen]
    exact hrx.symm

/-- C17 at a concrete input: key `3` on `tiny`, the digest "12345678" and the nonce `10`,
which is larger than the order; the signature is `(3, 1)`. -/
theorem weakECDSASign_standard_witness :
    WeakECDSASign 10 tinyPriv digest12345678 = some (some (3, 1)) ∧
    ecdsaVerify tinyPub (hashToInt digest12345678 tinyPub.Curve) 3 1 = true :=
  ⟨by decide,
    (weakECDSASign_standard tinyPub tinyEnc 1 tiny_groupModel.laws tiny_prime 3
      (by rw [show ((3 : Int) • (1 : ZMod 7)) = 3 from by simp]; decide)
      digest12345678 10 3 1 (by decide)).2.2.2.2.2.2⟩

/-- C18 at a failing input: the SM2 curve, the key `2` (`K = 2·G`, `1 + 2` invertible),
the 32-byte digest `digestSm2` and the nonce `N + 1`. The derived `r` is `N - 1`, and
`r + rand = 2N` is a multiple of `N` without being `N`, so the test `r + rand = N` lets it
through: the returned `(N - 1, 1)` has `t = (r + s) mod N = 0` and does not pass SM2
verification. The nonce `1`, which is `N + 1` modulo `N`, is rejected. -/
theorem weakSM2Sign_large_nonce_invalid :
    sm2Std.curve.ScalarBaseMult (Bytes sm2Priv.D) =
      (sm2Priv.PublicKey.X, sm2Priv.PublicKey.Y) ∧
    ModInverse (1 + sm2Priv.D) sm2Priv.PublicKey.Curve.Params.N =
      some 77194726140237499170946896809347261844041082483305163045229206237528959363949 ∧
    digestSm2.data.length = 32 ∧
    WeakSM2Sign sm2Std (sm2Priv.PublicKey.Curve.Params.N + 1) sm2Priv digestSm2 =
      some (some (sm2Priv.PublicKey.Curve.Params.N - 1, 1)) ∧
    (sm2Priv.PublicKey.Curve.Params.N - 1 + 1) % sm2Priv.PublicKey.Curve.Params.N = 0 ∧
    sm2Verify sm2Priv.PublicKey (SetBytes digestSm2.data)
      (sm2Priv.PublicKey.Curve.Params.N - 1) 1 = false ∧
    WeakSM2Sign sm2Std 1 sm2Priv digestSm2 = some none := by
  refine ⟨by decide!, by decide!, by decide, by decide!, by decide!, by decide!, by decide!⟩

/-- The same slip on a curve small enough to trace by hand: key `3` on `tiny` (`K = 3·G`,
prime order `7`, `1 + 3` invertible), the 32-byte digest `digest32` and the nonce `13`. The
derived `r` is `1` and `r + 13 = 14 = 2N`, so `(1, 6)` is returned, with
`t = (r + s) mod N = 0`; the nonce `6` is rejected. -/
theorem weakSM2Sign_large_nonce_invalid_tiny :
    Nat.Prime tinyPriv.PublicKey.Curve.Params.N.toNat ∧
    tinyPub.Curve.ScalarBaseMult (Bytes tinyPriv.D) = (tinyPub.X, tinyPub.Y) ∧
    ModInverse (1 + tinyPriv.D) tinyPriv.PublicKey.Curve.Params.N = some 2 ∧
    digest32.data.length = 32 ∧
    WeakSM2Sign tinySm2 13 tinyPriv digest32 = some (some (1, 6)) ∧
    (1 + 6) % tinyPub.Curve.Params.N = 0 ∧
    sm2Verify tinyPub (SetBytes digest32.data) 1 6 = false ∧
    WeakSM2Sign tinySm2 6 tinyPriv digest32 = some none := by
  refine ⟨tiny_prime, by decide, by decide, by decide, by decide, by decide, by decide,
    by decide⟩

/-- Outside the nonces with `r + rand ≡ 0 (mod N)`, a signature of `WeakSM2Sign` passes SM2
verification: on the SM2 curve, of prime order `N`, with operations that implement the
group and `Inverse` inverting modulo `N`, for a key `D` with `1 + D` invertible and
`K = D·G`, a nonce `rand ≥ 0` and a digest of at least 32 bytes of capacity. -/
theorem weakSM2Sign_standard {Pt : Type} [AddCommGroup Pt] (sm2P256 : Sm2P256Curve)
    (pub : PublicKey) (enc : Pt → Int × Int) (gen : Pt)
    (hc : sm2P256.curve = pub.Curve) (hL : GroupLaws pub.Curve enc gen)
    (hN : Nat.Prime pub.Curve.Params.N.toNat)
    (hInv : InvertsModulo sm2P256 pub.Curve.Params.N)
    (D : Int) (hD1 : ¬ 1 + D ≡ 0 [ZMOD pub.Curve.Params.N])
    (hK : enc (D • gen) = (pub.X, pub.Y)) (h : ByteSlice) (h32 : List Byte)
    (hu : h.upTo 32 = some h32) (rand r s : Int) (hrand : 0 ≤ rand)
    (hs : WeakSM2Sign sm2P256 rand { PublicKey := pub, D := D } h = some (some (r, s)))
    (hne : ¬ r + rand ≡ 0 [ZMOD pub.Curve.Params.N]) :
    sm2Verify pub (SetBytes h32) r s = true := by
  obtain ⟨hN0, ⟨h32', hu', hr⟩, hrne, -, hsne, hse⟩ := WeakSM2Sign_some hs
  have heqn := WeakSM2Sign_equation { PublicKey := pub, D := D } hN hInv hD1 hs
  dsimp only at hN0 hr hse heqn
  rw [hu] at hu'
  obtain rfl : h32 = h32' := Option.some.inj hu'
  have hNpos := prime_pos hN
  have hr0 : 0 ≤ r := by rw [hr]; exact Int.emod_nonneg _ hN0
  have hrN : r < pub.Curve.Params.N := by rw [hr]; exact Int.emod_lt_of_pos _ hNpos
  have hs0 : 0 ≤ s := by rw [hse]; exact Int.emod_nonneg _ hN0
  have hsN : s < pub.Curve.Params.N := by rw [hse]; exact Int.emod_lt_of_pos _ hNpos
  have ht : (r + s) % pub.Curve.Params.N ≠ 0 := by
    intro hc0
    apply hne
    have h1 : r + s ≡ 0 [ZMOD pub.Curve.Params.N] := by simpa [Int.ModEq] using hc0
    have h2 : s + r ≡ 0 [ZMOD pub.Curve.Params.N] := by rwa [add_comm] at h1
    have h3 : rand ≡ s [ZMOD pub.Curve.Params.N] := by
      have h4 := Int.ModEq.add_left s (Int.ModEq.mul_left D h2)
      rw [mul_zero, add_zero] at h4
      exact heqn.trans h4
    exact (Int.ModEq.add_left r h3).trans h1
  rw [sm2Verify_iff]
  refine ⟨by omega, by omega, by omega, by omega, ht, ?_⟩
  have ht0 : 0 ≤ (r + s) % pub.Curve.Params.N := Int.emod_nonneg _ hN0
  rw [hL.verify_point hK hs0 ht0, ← mul_zsmul, ← add_zsmul]
  have hscal : s + (r + s) % pub.Curve.Params.N * D ≡ rand [ZMOD pub.Curve.Params.N] := by
    have h1 : s + (r + s) % pub.Curve.Params.N * D ≡ s + (r + s) * D
        [ZMOD pub.Curve.Params.N] :=
      Int.ModEq.add_left _ (Int.ModEq.mul_right _ (Int.mod_modEq _ _))
    have e : s + (r + s) * D = s + D * (s + r) := by ring
    rw [e] at h1
    exact h1.trans heqn.symm
  rw [zsmul_congr hNpos hL.order hscal gen, ← hL.base_zsmul hrand]
  rw [hc] at hr
  exact hr.symm

/-- C19. The pair recovered by `RecoverSM2RandomRelationship` is a consistent nonce
relation: for prime order `N`, `Inverse` inverting modulo `N`, a key `D` with `1 + D`
invertible and signatures `(r1, s1)`, `(r2, s2)` that `WeakSM2Sign` produced under `D` with
nonces `k1`, `k2`, if `s1 + r1` is invertible modulo `N` then the function returns a pair
`(a, b)` and `k2 ≡ a * k1 + b (mod N)`. -/
theorem recoverRelationship_consistent (sm2P256 : Sm2P256Curve) (pub : PublicKey) (D : Int)
    (h : ByteSlice) (k1 k2 r1 s1 r2 s2 : Int)
    (hN : Nat.Prime pub.Curve.Params.N.toNat)
    (hInv : InvertsModulo sm2P256 pub.Curve.Params.N)
    (hD1 : ¬ 1 + D ≡ 0 [ZMOD pub.Curve.Params.N])
    (h1 : WeakSM2Sign sm2P256 k1 { PublicKey := pub, D := D } h = some (some (r1, s1)))
    (h2 : WeakSM2Sign sm2P256 k2 { PublicKey := pub, D := D } h = some (some (r2, s2)))
    (ht : ∃ v, (s1 + r1) * v ≡ 1 [ZMOD pub.Curve.Params.N]) :
    ∃ a b, RecoverSM2RandomRelationship ⟨r1, s1⟩ ⟨r2, s2⟩ pub.Curve.Params.N =
        some (some (a, b)) ∧
      k2 ≡ a * k1 + b [ZMOD pub.Curve.Params.N] := by
  have e1 := WeakSM2Sign_equation { PublicKey := pub, D := D } hN hInv hD1 h1
  have e2 := WeakSM2Sign_equation { PublicKey := pub, D := D } hN hInv hD1 h2
  dsimp only at e1 e2
  have hpos := prime_pos hN
  have hN0 : pub.Curve.Params.N ≠ 0 := hpos.ne'
  obtain ⟨v0, hv0⟩ := ht
  obtain ⟨v, hv⟩ := ModInverse_exists hpos (gcd_eq_one_of_inverse hv0)
  have hve := (ModInverse_spec hpos hv).2.2
  refine ⟨_, _, recoverRelationship_eval ⟨r1, s1⟩ ⟨r2, s2⟩ _ v hN0 hv, ?_⟩
  dsimp only
  generalize ha : v * (s2 + r2) % pub.Curve.Params.N = a
  have hat : a * (s1 + r1) ≡ s2 + r2 [ZMOD pub.Curve.Params.N] := by
    rw [← ha]
    have h3 : v * (s2 + r2) % pub.Curve.Params.N * (s1 + r1) ≡ v * (s2 + r2) * (s1 + r1)
        [ZMOD pub.Curve.Params.N] := Int.ModEq.mul_right _ (Int.mod_modEq _ _)
    have h4 := Int.ModEq.mul_right (s2 + r2) hve
    rw [one_mul] at h4
    have e : v * (s2 + r2) * (s1 + r1) = (s1 + r1) * v * (s2 + r2) := by ring
    rw [e] at h3
    exact h3.trans h4
  -- `a * k1 + b ≡ a * (s1 + D * t1) + (s2 - a * s1) = s2 + D * (a * t1) ≡ s2 + D * t2 ≡ k2`
  have hb : (s2 - a * s1) % pub.Curve.Params.N ≡ s2 - a * s1 [ZMOD pub.Curve.Params.N] :=
    Int.mod_modEq _ _
  have h5 : a * k1 + (s2 - a * s1) % pub.Curve.Params.N ≡
      a * (s1 + D * (s1 + r1)) + (s2 - a * s1) [ZMOD pub.Curve.Params.N] :=
    Int.ModEq.add (Int.ModEq.mul_left a e1) hb
  have h6 : a * (s1 + D * (s1 + r1)) + (s2 - a * s1) = s2 + D * (a * (s1 + r1)) := by ring
  rw [h6] at h5
  have h7 : s2 + D * (a * (s1 + r1)) ≡ s2 + D * (s2 + r2) [ZMOD pub.Curve.Params.N] :=
    Int.ModEq.add_left _ (Int.ModEq.mul_left D hat)
  exact e2.trans (h5.trans h7).symm

/-- C19 at a concrete input: key `3` on `tiny`, nonces `3` and `0`; the recovered pair is
`(4, 2)` and `0 ≡ 4 * 3 + 2 (mod 7)`. -/
theorem recoverRelationship_consistent_witness :
    RecoverSM2RandomRelationship ⟨2, 1⟩ ⟨6, 6⟩ tinyPub.Curve.Params.N = some (some (4, 2)) ∧
    ∃ a b, RecoverSM2RandomRelationship ⟨2, 1⟩ ⟨6, 6⟩ tinyPub.Curve.Params.N =
        some (some (a, b)) ∧
      0 ≡ a * 3 + b [ZMOD tinyPub.Curve.Params.N] :=
  ⟨by decide,
    recoverRelationship_consistent tinySm2 tinyPub 3 digest12345678 3 0 2 1 6 6
      tiny_prime tinySm2_inverts (by decide) (by decide) (by decide) ⟨5, by decide⟩⟩

/-! ## Bounds of `hashToInt` -/

/-- The value of a byte string is below `256` to the power of its length. -/
theorem SetBytes_lt (bs : List Byte) : SetBytes bs < 256 ^ bs.length := by
  have key : ∀ (l : List Byte) (v : Nat),
      l.foldl (fun acc b => acc * 256 + b.val) v < (v + 1) * 256 ^ l.length := by
    intro l
    induction l with
    | nil => intro v; simp
    | cons b l ih =>
      intro v
      simp only [List.foldl_cons, List.length_cons]
      have h1 := ih (v * 256 + b.val)
      have hb : b.val < 256 := b.isLt
      calc l.foldl (fun acc b => acc * 256 + b.val) (v * 256 + b.val)
          < (v * 256 + b.val + 1) * 256 ^ l.length := h1
        _ ≤ ((v + 1) * 256) * 256 ^ l.length := by
            apply Nat.mul_le_mul_right
            omega
        _ = (v + 1) * 256 ^ (l.length + 1) := by ring
  unfold SetBytes
  have := key bs 0
  rw [zero_add, one_mul] at this
  exact_mod_cast this

theorem SetBytes_nonneg (bs : List Byte) : 0 ≤ SetBytes bs := by
  unfold SetBytes
  exact Int.natCast_nonneg _

/-- C20. `hashToInt` is the identity on encoded scalars when the bit length `L` of the
order `N` is a whole number of bytes: for `0 ≤ v < N`, `hashToInt` of the minimal big-endian
bytes of `v` is `v`; and for every byte string and every `N` the result is below `2 ^ L`. -/
theorem hashToInt_spec (c : Curve) (h : ByteSlice) :
    hashToInt h c < 2 ^ BitLen c.Params.N ∧
    ∀ (v : Int) (spare : List Byte), BitLen c.Params.N % 8 = 0 → 0 ≤ v → v < c.Params.N →
      hashToInt { data := Bytes v, spare := spare } c = v := by
  constructor
  · unfold hashToInt
    dsimp only
    generalize hL : BitLen c.Params.N = L
    generalize hhs : (if h.data.length > (L + 7) / 8 then List.take ((L + 7) / 8) h.data
      else h.data) = hs
    have hlen : hs.length ≤ (L + 7) / 8 := by
      rw [← hhs]
      split_ifs with hc
      · simp
      · omega
    have hlt := SetBytes_lt hs
    have h0 := SetBytes_nonneg hs
    have e256 : (256 : Int) ^ hs.length = 2 ^ (8 * hs.length) := by
      rw [pow_mul]; norm_num
    rw [e256] at hlt
    split_ifs with hex
    · have hex2 : L < 8 * hs.length := by omega
      have etn : ((hs.length : Int) * 8 - (L : Int)).toNat = 8 * hs.length - L := by omega
      rw [etn]
      apply Int.ediv_lt_of_lt_mul (by positivity)
      rw [← pow_add]
      have : L + (8 * hs.length - L) = 8 * hs.length := by omega
      rw [this]
      exact hlt
    · have hex2 : 8 * hs.length ≤ L := by omega
      calc SetBytes hs < 2 ^ (8 * hs.length) := hlt
        _ ≤ 2 ^ L := pow_le_pow_right₀ (by norm_num) hex2
  · intro v spare hbits hv0 hvN
    exact hashToInt_Bytes c hbits hv0 hvN

/-- C20 at a concrete input: on `small`, whose order `131` has 8 bits, the scalar `102`. -/
theorem hashToInt_spec_witness :
    BitLen small.Params.N = 8 ∧
    hashToInt { data := Bytes 102, spare := [] } small = 102 :=
  ⟨by decide,
    (hashToInt_spec small digest12345678).2 102 [] (by decide) (by decide) (by decide)⟩

end SigAttack
